import Mathlib

/-
Verification of the minuet-tracer coordinate pipeline
(src/c++/src/minuet_map.cpp) against its natural-language specification.

The pipeline under study: deduplication + sort of quantized input
coordinates (compute_unique_sorted_coords), query construction
(build_coordinate_queries), tiling and pivots (create_tiles_and_pivots),
the lookup engine (perform_coordinate_lookup), and the two binary
serializers (write_gmem_trace, write_kernel_map_to_gz).

The repository ships only minuet_map.cpp; the header declaring the
coordinate codec (Coord3D, IndexedCoord) and the kernel-map container is
not part of the sources, so those few leaf definitions are modelled from
the spec, as marked in their doc comments.  Every other definition is a
direct shallow embedding of the C++ function of the same name.  The
concurrent lookup loop is embedded sequentially: per query the C++ logic
is deterministic, and the set of produced kernel-map entries does not
depend on the thread schedule (only the interleaving order does).
-/

/-- Modelled from the spec: the missing header's Coord3D value type,
three signed integer coordinates (x, y, z). -/
structure Coord3D where
  x : Int
  y : Int
  z : Int
  deriving DecidableEq

/-- Modelled from the spec: component-wise addition, used to apply a
kernel offset to a coordinate. -/
def Coord3D.add (a b : Coord3D) : Coord3D :=
  ⟨a.x + b.x, a.y + b.y, a.z + b.z⟩

instance : Add Coord3D := ⟨Coord3D.add⟩

/-- Modelled from the spec: quantization divides each axis by the stride
with C++ integer division (truncation toward zero). -/
def Coord3D.quantized (c : Coord3D) (stride : Int) : Coord3D :=
  ⟨c.x.tdiv stride, c.y.tdiv stride, c.z.tdiv stride⟩

/-- Modelled from the spec: one packed 10-bit field of the 32-bit key
(two's-complement truncation of the component to its bit budget). -/
def packField (v : Int) : Nat := (v % (1024 : Int)).toNat

/-- Modelled from the spec: to_key packs the three coordinate components
into one unsigned 32-bit key with a fixed 10-bit field per axis. -/
def Coord3D.to_key (c : Coord3D) : Nat :=
  packField c.x * 1048576 + packField c.y * 1024 + packField c.z

/-- Modelled from the spec: sign-extension of one 10-bit field back to a
signed component. -/
def unpackField (f : Nat) : Int :=
  if f < 512 then (f : Int) else (f : Int) - 1024

/-- Modelled from the spec: from_key is the exact inverse of to_key on
coordinates within the per-axis bit budget. -/
def Coord3D.from_key (k : Nat) : Coord3D :=
  ⟨unpackField (k / 1048576 % 1024), unpackField (k / 1024 % 1024),
    unpackField (k % 1024)⟩

/-- A coordinate whose components fit the 10-bit-per-axis budget of the
packed key; the spec requires the codec to be exact on these. -/
def Coord3D.representable (c : Coord3D) : Prop :=
  -512 ≤ c.x ∧ c.x < 512 ∧ -512 ≤ c.y ∧ c.y < 512 ∧ -512 ≤ c.z ∧ c.z < 512

instance (c : Coord3D) : Decidable c.representable := by
  unfold Coord3D.representable
  infer_instance

theorem packField_lt (v : Int) : packField v < 1024 := by
  unfold packField
  omega

theorem unpackField_packField (v : Int) (h0 : -512 ≤ v) (h1 : v < 512) :
    unpackField (packField v) = v := by
  unfold unpackField packField
  split <;> omega

theorem to_key_lt (c : Coord3D) : c.to_key < 1073741824 := by
  have hx := packField_lt c.x
  have hy := packField_lt c.y
  have hz := packField_lt c.z
  unfold Coord3D.to_key
  omega

theorem from_key_to_key (c : Coord3D) (h : c.representable) :
    Coord3D.from_key c.to_key = c := by
  rcases c with ⟨x, y, z⟩
  obtain ⟨h1, h2, h3, h4, h5, h6⟩ := h
  have hx := packField_lt x
  have hy := packField_lt y
  have hz := packField_lt z
  have ex : (packField x * 1048576 + packField y * 1024 + packField z)
      / 1048576 % 1024 = packField x := by omega
  have ey : (packField x * 1048576 + packField y * 1024 + packField z)
      / 1024 % 1024 = packField y := by omega
  have ez : (packField x * 1048576 + packField y * 1024 + packField z)
      % 1024 = packField z := by omega
  simp only [Coord3D.from_key, Coord3D.to_key, ex, ey, ez,
    unpackField_packField x h1 h2, unpackField_packField y h3 h4,
    unpackField_packField z h5 h6]

theorem packField_unpackField (f : Nat) (h : f < 1024) :
    packField (unpackField f) = f := by
  unfold packField unpackField
  split <;> omega

theorem to_key_from_key (k : Nat) (h : k < 1073741824) :
    (Coord3D.from_key k).to_key = k := by
  unfold Coord3D.from_key Coord3D.to_key
  simp only [packField_unpackField _ (by omega : k / 1048576 % 1024 < 1024),
    packField_unpackField _ (by omega : k / 1024 % 1024 < 1024),
    packField_unpackField _ (by omega : k % 1024 < 1024)]
  omega

theorem to_key_inj (c d : Coord3D) (hc : c.representable)
    (hd : d.representable) (h : c.to_key = d.to_key) : c = d := by
  have := from_key_to_key c hc
  have := from_key_to_key d hd
  rw [← from_key_to_key c hc, ← from_key_to_key d hd, h]

/-- Modelled from the spec: an IndexedCoord is a coordinate paired with
the index it had in the original (pre-dedup) input list. -/
structure IndexedCoord where
  coord : Coord3D
  orig_idx : Nat
  deriving DecidableEq

/-- The packed key of an IndexedCoord, as used throughout the C++ code
via IndexedCoord's to_key. -/
def IndexedCoord.to_key (ic : IndexedCoord) : Nat := ic.coord.to_key

/-- Default coordinate used to discharge list indexing totally; every use
is guarded by an in-bounds proof. -/
def cZero : Coord3D := ⟨0, 0, 0⟩

/-- Default IndexedCoord for total list indexing. -/
def icZero : IndexedCoord := ⟨cZero, 0⟩

/-- The packed key computed for input position idx in
compute_unique_sorted_coords: quantize, then pack. -/
def inputKey (in_coords : List Coord3D) (stride : Int) (idx : Nat) : Nat :=
  ((in_coords.getD idx cZero).quantized stride).to_key

/-- The (key, original_index) pair list built by the first loop of
compute_unique_sorted_coords, in input order. -/
def keyIdxPairs (in_coords : List Coord3D) (stride : Int) : List (Nat × Nat) :=
  (List.range in_coords.length).map
    (fun idx => (inputKey in_coords stride idx, idx))

/-- The key-only comparison used by the C++ stable sort of
(key, original_index) pairs. -/
def keyLe (a b : Nat × Nat) : Prop := a.1 ≤ b.1

instance : DecidableRel keyLe := fun a b => Nat.decLe a.1 b.1

instance : IsTotal (Nat × Nat) keyLe := ⟨fun a b => Nat.le_total a.1 b.1⟩

instance : IsTrans (Nat × Nat) keyLe := ⟨fun _ _ _ => Nat.le_trans⟩

/-- The stably key-sorted (key, original_index) sequence of
compute_unique_sorted_coords.  std::stable_sort with comparator
a.first < b.first produces the unique stable key-sorted permutation,
which is what insertion sort under the reflexive key order computes. -/
def sortedPairs (in_coords : List Coord3D) (stride : Int) : List (Nat × Nat) :=
  (keyIdxPairs in_coords stride).insertionSort keyLe

/-- The dedup scan of compute_unique_sorted_coords after the first
element: an element is emitted exactly when its key differs from the
last emitted key. -/
def dedupKeys (last : Nat) : List (Nat × Nat) → List (Nat × Nat)
  | [] => []
  | p :: rest =>
    if p.1 = last then dedupKeys last rest else p :: dedupKeys p.1 rest

/-- The dedup scan of compute_unique_sorted_coords: the first sorted pair
is always emitted, later pairs only on a key change. -/
def uniqFromSorted : List (Nat × Nat) → List (Nat × Nat)
  | [] => []
  | p :: rest => p :: dedupKeys p.1 rest

/-- Shallow embedding of compute_unique_sorted_coords: build (key, index)
pairs, stably sort by key, emit one IndexedCoord per distinct key with
the coordinate recovered through from_key. -/
def compute_unique_sorted_coords (in_coords : List Coord3D)
    (stride : Int) : List IndexedCoord :=
  (uniqFromSorted (sortedPairs in_coords stride)).map
    (fun p => ⟨Coord3D.from_key p.1, p.2⟩)

/-- The four parallel output arrays of build_coordinate_queries. -/
structure BuildQueriesResult where
  qry_keys : List IndexedCoord
  qry_in_idx : List Nat
  qry_off_idx : List Nat
  wt_offsets : List Coord3D
  deriving DecidableEq

/-- Shallow embedding of build_coordinate_queries: outer loop over
offsets, inner loop over unique coordinates, global index
off_idx * num_inputs + in_idx; the stride argument is unused, as in the
source. -/
def build_coordinate_queries (uniq_coords : List IndexedCoord)
    (stride : Int) (off_coords : List Coord3D) : BuildQueriesResult :=
  { qry_keys := off_coords.flatMap (fun off =>
      uniq_coords.map (fun u => ⟨u.coord + off, u.orig_idx⟩)),
    qry_in_idx := off_coords.flatMap
      (fun _ => List.range uniq_coords.length),
    qry_off_idx := (List.range off_coords.length).flatMap
      (fun o => List.replicate uniq_coords.length o),
    wt_offsets := off_coords.flatMap
      (fun off => List.replicate uniq_coords.length off) }

/-- The chunking loop of create_tiles_and_pivots: successive take/drop
slices of width n.  The loop advances by n ≥ 1 positions per iteration,
so a fuel of the list's length always suffices; fuel keeps the
recursion structural. -/
def tileChunksF (n : Nat) : Nat → List IndexedCoord → List (List IndexedCoord)
  | _, [] => []
  | 0, _ :: _ => []
  | fuel + 1, a :: rest =>
    if n = 0 then []
    else (a :: rest).take n :: tileChunksF n fuel ((a :: rest).drop n)

/-- The chunking loop of create_tiles_and_pivots at its natural fuel. -/
def tileChunks (n : Nat) (l : List IndexedCoord) : List (List IndexedCoord) :=
  tileChunksF n l.length l

/-- The tiles and pivots produced by create_tiles_and_pivots. -/
structure TilesPivotsResult where
  tiles : List (List IndexedCoord)
  pivots : List IndexedCoord
  deriving DecidableEq

/-- Shallow embedding of create_tiles_and_pivots: empty input yields no
tiles; a non-positive tile size falls back to one tile covering the full
range; each non-empty tile contributes its first element as pivot. -/
def create_tiles_and_pivots (uniq_coords : List IndexedCoord)
    (tile_size_param : Int) : TilesPivotsResult :=
  if uniq_coords.isEmpty then ⟨[], []⟩
  else
    let current_tile_size : Nat :=
      if tile_size_param ≤ 0 then uniq_coords.length
      else tile_size_param.toNat
    let tiles := tileChunks current_tile_size uniq_coords
    ⟨tiles, tiles.filterMap (fun t => t.head?)⟩

/-- The pivot binary-search loop of perform_coordinate_lookup, with the
source's exact control flow: while low ≤ high, probe
mid = low + (high - low) / 2; on piv_key ≤ query_key take target = mid
and continue right, otherwise continue left. -/
def btLoopF (piv_keys : List Nat) (qkey : Nat) :
    Nat → Int → Int → Int → Int
  | 0, _, _, target => target
  | fuel + 1, low, high, target =>
    if low ≤ high then
      let mid := low + (high - low) / 2
      if piv_keys.getD mid.toNat 0 ≤ qkey then
        btLoopF piv_keys qkey fuel (mid + 1) high mid
      else
        btLoopF piv_keys qkey fuel low (mid - 1) target
    else target

/-- The tile id selected for a query: -1 (here: none) only when the
pivot list is empty, otherwise the binary-search result starting from
low = 0, high = count - 1, target = 0.  Each iteration shrinks the
interval high + 1 - low by at least one, so fuel equal to the pivot
count makes the fuel-based loop exact. -/
def find_tile_id (piv_keys : List Nat) (qkey : Nat) : Option Nat :=
  if piv_keys.isEmpty then none
  else
    some (btLoopF piv_keys qkey piv_keys.length 0
      (piv_keys.length - 1) 0).toNat

/-- The per-query tile scan of perform_coordinate_lookup: linear scan of
the selected tile, stopping at the first element whose key equals the
query key, yielding that element's original index. -/
def queryMatch (tiles : List (List IndexedCoord))
    (pivs : List IndexedCoord) (qkey : Nat) : Option Nat :=
  match find_tile_id (pivs.map IndexedCoord.to_key) qkey with
  | none => none
  | some t =>
    if t < tiles.length then
      ((tiles.getD t []).find?
        (fun ic => ic.to_key == qkey)).map IndexedCoord.orig_idx
    else none

/-- Number of tile-element reads the scan records for one query: one per
probed element, stopping at the first key match. -/
def scanProbes (qkey : Nat) : List IndexedCoord → Nat
  | [] => 0
  | ic :: rest => if ic.to_key = qkey then 1 else 1 + scanProbes qkey rest

/-- Number of tile-element reads recorded for a query overall: zero when
no tile is selected or the selected tile id is out of range. -/
def queryTileReads (tiles : List (List IndexedCoord))
    (pivs : List IndexedCoord) (qkey : Nat) : Nat :=
  match find_tile_id (pivs.map IndexedCoord.to_key) qkey with
  | none => 0
  | some t =>
    if t < tiles.length then scanProbes qkey (tiles.getD t []) else 0

/-- One query of the lookup loop: on a tile-scan match, the kernel map
receives (query's offset-index, matched element's original index,
query's originating original index). -/
def lookupOne (tiles : List (List IndexedCoord))
    (pivs : List IndexedCoord) (qry_keys : List IndexedCoord)
    (qry_off_idx : List Nat) (q : Nat) : Option (Nat × Nat × Nat) :=
  match queryMatch tiles pivs (qry_keys.getD q icZero).to_key with
  | some input_idx =>
    some (qry_off_idx.getD q 0, input_idx, (qry_keys.getD q icZero).orig_idx)
  | none => none

/-- Shallow embedding of perform_coordinate_lookup.  The C++ version
distributes queries over batches and threads, but each query is handled
independently and contributes at most one kernel-map entry, so the set
of entries is schedule-independent; the embedding processes the queries
in index order and returns the flat entry list
(offset_idx, input_idx, query_src_idx). -/
def perform_coordinate_lookup (uniq_coords : List IndexedCoord)
    (qry_keys : List IndexedCoord) (qry_in_idx : List Nat)
    (qry_off_idx : List Nat) (wt_offsets : List Coord3D)
    (tiles : List (List IndexedCoord)) (pivs : List IndexedCoord)
    (tile_size_param : Int) : List (Nat × Nat × Nat) :=
  if uniq_coords.isEmpty ∨ qry_keys.isEmpty then []
  else
    (List.range qry_keys.length).filterMap
      (lookupOne tiles pivs qry_keys qry_off_idx)

/-- The per-offset match list view of the flat kernel-map entries: the
list kept under offset-index o, in discovery order. -/
def kmapList (entries : List (Nat × Nat × Nat)) (o : Nat) :
    List (Nat × Nat) :=
  entries.filterMap
    (fun e => if e.1 = o then some (e.2.1, e.2.2) else none)

/-- Little-endian serialization of the low 32 bits of a number, one byte
per list element. -/
def le32 (n : Nat) : List Nat :=
  [n % 256, n / 256 % 256, n / 65536 % 256, n / 16777216 % 256]

/-- Little-endian serialization of the low 64 bits of a number. -/
def le64 (n : Nat) : List Nat :=
  le32 (n % 4294967296) ++ le32 (n / 4294967296)

/-- One simulated memory access: phase, worker id, operation, tensor tag
(all u8 in the source) and a u64 address. -/
structure MemoryAccessEntry where
  phase : Nat
  thread_id : Nat
  op : Nat
  tensor : Nat
  addr : Nat
  deriving DecidableEq

/-- The bytes write_gmem_trace emits for one trace entry: four one-byte
fields, then the address as 4 or 8 little-endian bytes. -/
def traceRecordBytes (sizeof_addr : Int) (e : MemoryAccessEntry) :
    List Nat :=
  [e.phase % 256, e.thread_id % 256, e.op % 256, e.tensor % 256] ++
    (if sizeof_addr = 4 then le32 e.addr else le64 e.addr)

/-- Shallow embedding of write_gmem_trace: an address width other than
4 or 8 fails with an invalid-argument error before any payload byte is
produced; otherwise the uncompressed payload is the little-endian entry
count followed by one record per entry. -/
def write_gmem_trace (trace : List MemoryAccessEntry)
    (sizeof_addr : Int) : Except String (List Nat) :=
  if sizeof_addr ≠ 4 ∧ sizeof_addr ≠ 8 then
    Except.error "sizeof_addr must be 4 or 8"
  else
    Except.ok (le32 trace.length ++
      trace.flatMap (traceRecordBytes sizeof_addr))

/-- Descending-list-length comparison used when iterating kernel-map
groups for serialization. -/
def lenDescLe (a b : Nat × List (Nat × Nat)) : Prop :=
  b.2.length ≤ a.2.length

instance : DecidableRel lenDescLe := fun a b => Nat.decLe b.2.length a.2.length

instance : IsTotal (Nat × List (Nat × Nat)) lenDescLe :=
  ⟨fun a b => Nat.le_total b.2.length a.2.length⟩

instance : IsTrans (Nat × List (Nat × Nat)) lenDescLe :=
  ⟨fun _ _ _ hab hbc => Nat.le_trans hbc hab⟩

/-- Modelled from the spec: the kernel-map container's get_sorted_items
accessor (declared in the missing header) returns the (offset-index,
match-list) groups ordered by descending list length. -/
def get_sorted_items (kmap : List (Nat × List (Nat × Nat))) :
    List (Nat × List (Nat × Nat)) :=
  kmap.insertionSort lenDescLe

/-- The bytes write_kernel_map_to_gz emits for one group: nothing when
the group's offset-index is out of bounds for the offset list (skipped
with a logged warning), otherwise one 12-byte record
(packed offset key, input index, query source index) per match. -/
def kmapGroupBytes (off_list : List Coord3D)
    (p : Nat × List (Nat × Nat)) : List Nat :=
  if p.1 < off_list.length then
    p.2.flatMap (fun m =>
      le32 (off_list.getD p.1 cZero).to_key ++ le32 m.1 ++ le32 m.2)
  else []

/-- Shallow embedding of write_kernel_map_to_gz: the uncompressed
payload is the little-endian total entry count (summed over all groups,
including any out-of-bounds ones) followed by the group records in
descending-list-length order. -/
def write_kernel_map_to_gz (kmap : List (Nat × List (Nat × Nat)))
    (off_list : List Coord3D) : List Nat :=
  le32 ((kmap.map (fun p => p.2.length)).sum) ++
    (get_sorted_items kmap).flatMap (kmapGroupBytes off_list)

/-
Stability of the key sort.  The C++ stable sort keeps pairs with equal
keys in input order; since the (key, index) pairs carry strictly
increasing indices, the sorted sequence is pairwise increasing under the
lexicographic order below.
-/

/-- Strict lexicographic order on (key, original_index) pairs. -/
def lexLT (a b : Nat × Nat) : Prop :=
  a.1 < b.1 ∨ (a.1 = b.1 ∧ a.2 < b.2)

/-- Strict order on the original_index component. -/
def secLT (a b : Nat × Nat) : Prop := a.2 < b.2

theorem orderedInsert_pairwise_lex (p : Nat × Nat) :
    ∀ l : List (Nat × Nat), l.Pairwise lexLT →
      (∀ x ∈ l, p.1 = x.1 → p.2 < x.2) →
      (l.orderedInsert keyLe p).Pairwise lexLT := by
  intro l
  induction l with
  | nil =>
    intro _ _
    simp [List.orderedInsert]
  | cons b t ih =>
    intro hp hsec
    rw [List.orderedInsert]
    by_cases hle : keyLe p b
    · rw [if_pos hle]
      refine List.Pairwise.cons ?_ hp
      intro y hy
      have hby : p.1 ≤ y.1 := by
        rcases List.mem_cons.mp hy with rfl | hyt
        · exact hle
        · rcases (List.pairwise_cons.mp hp).1 y hyt with h | ⟨h, _⟩
          · exact Nat.le_trans hle (Nat.le_of_lt h)
          · exact Nat.le_trans hle (Nat.le_of_eq h)
      rcases Nat.lt_or_ge p.1 y.1 with hlt | hge
      · exact Or.inl hlt
      · have heq : p.1 = y.1 := Nat.le_antisymm hby hge
        exact Or.inr ⟨heq, hsec y hy heq⟩
    · rw [if_neg hle]
      have hb : b.1 < p.1 := Nat.lt_of_not_le hle
      refine List.Pairwise.cons ?_
        (ih (List.pairwise_cons.mp hp).2
          (fun x hx h => hsec x (List.mem_cons_of_mem b hx) h))
      intro z hz
      rcases (List.mem_orderedInsert keyLe).mp hz with rfl | hzt
      · exact Or.inl hb
      · exact (List.pairwise_cons.mp hp).1 z hzt

theorem insertionSort_pairwise_lex :
    ∀ l : List (Nat × Nat), l.Pairwise secLT →
      (l.insertionSort keyLe).Pairwise lexLT := by
  intro l
  induction l with
  | nil =>
    intro _
    simp [List.insertionSort]
  | cons p t ih =>
    intro hp
    rw [List.insertionSort]
    refine orderedInsert_pairwise_lex p _ (ih (List.pairwise_cons.mp hp).2) ?_
    intro x hx _
    exact (List.pairwise_cons.mp hp).1 x ((List.mem_insertionSort keyLe).mp hx)

theorem keyIdxPairs_pairwise_sec (ic : List Coord3D) (s : Int) :
    (keyIdxPairs ic s).Pairwise secLT := by
  unfold keyIdxPairs
  exact List.Pairwise.map _ (fun a b h => h) (List.pairwise_lt_range ic.length)

theorem sortedPairs_pairwise_lex (ic : List Coord3D) (s : Int) :
    (sortedPairs ic s).Pairwise lexLT :=
  insertionSort_pairwise_lex _ (keyIdxPairs_pairwise_sec ic s)

theorem mem_keyIdxPairs (ic : List Coord3D) (s : Int) (p : Nat × Nat) :
    p ∈ keyIdxPairs ic s ↔ p.2 < ic.length ∧ p.1 = inputKey ic s p.2 := by
  unfold keyIdxPairs
  constructor
  · intro h
    rcases List.mem_map.mp h with ⟨j, hj, rfl⟩
    exact ⟨List.mem_range.mp hj, rfl⟩
  · intro ⟨h1, h2⟩
    refine List.mem_map.mpr ⟨p.2, List.mem_range.mpr h1, ?_⟩
    rw [← h2]

theorem mem_sortedPairs (ic : List Coord3D) (s : Int) (p : Nat × Nat) :
    p ∈ sortedPairs ic s ↔ p.2 < ic.length ∧ p.1 = inputKey ic s p.2 := by
  unfold sortedPairs
  rw [List.mem_insertionSort]
  exact mem_keyIdxPairs ic s p

/-
The dedup scan: every emitted pair is the first occurrence of its key in
the sorted sequence, keys come out strictly increasing, and every key of
the sorted sequence is represented.
-/

theorem dedupKeys_find (l : List (Nat × Nat)) :
    ∀ last : Nat, l.Pairwise lexLT → (∀ p ∈ l, last ≤ p.1) →
      ∀ e ∈ dedupKeys last l,
        last < e.1 ∧ l.find? (fun p => p.1 == e.1) = some e := by
  induction l with
  | nil =>
    intro last _ _ e he
    simp [dedupKeys] at he
  | cons b t ih =>
    intro last hp hge e he
    rw [dedupKeys] at he
    have hpt : t.Pairwise lexLT := (List.pairwise_cons.mp hp).2
    have hhead := (List.pairwise_cons.mp hp).1
    by_cases hb : b.1 = last
    · rw [if_pos hb] at he
      have hget : ∀ p ∈ t, last ≤ p.1 := by
        intro p hpmem
        rcases hhead p hpmem with h | ⟨h, _⟩
        · omega
        · omega
      obtain ⟨h1, h2⟩ := ih last hpt hget e he
      refine ⟨h1, ?_⟩
      rw [List.find?_cons_of_neg, h2]
      simp only [beq_iff_eq]
      omega
    · rw [if_neg hb] at he
      have hlastb : last < b.1 := Nat.lt_of_le_of_ne (hge b (List.mem_cons_self b t)) (fun h => hb h.symm)
      rcases List.mem_cons.mp he with rfl | het
      · refine ⟨hlastb, ?_⟩
        rw [List.find?_cons_of_pos]
        simp
      · have hget : ∀ p ∈ t, b.1 ≤ p.1 := by
          intro p hpmem
          rcases hhead p hpmem with h | ⟨h, _⟩
          · omega
          · omega
        obtain ⟨h1, h2⟩ := ih b.1 hpt hget e het
        refine ⟨by omega, ?_⟩
        rw [List.find?_cons_of_neg, h2]
        simp only [beq_iff_eq]
        omega

theorem uniqFromSorted_find (sp : List (Nat × Nat)) (hp : sp.Pairwise lexLT) :
    ∀ e ∈ uniqFromSorted sp, sp.find? (fun p => p.1 == e.1) = some e := by
  match sp with
  | [] =>
    intro e he
    simp [uniqFromSorted] at he
  | b :: t =>
    intro e he
    rw [uniqFromSorted] at he
    have hpt : t.Pairwise lexLT := (List.pairwise_cons.mp hp).2
    have hhead := (List.pairwise_cons.mp hp).1
    have hget : ∀ p ∈ t, b.1 ≤ p.1 := by
      intro p hpmem
      rcases hhead p hpmem with h | ⟨h, _⟩
      · omega
      · omega
    rcases List.mem_cons.mp he with rfl | het
    · rw [List.find?_cons_of_pos]
      simp
    · obtain ⟨h1, h2⟩ := dedupKeys_find t b.1 hpt hget e het
      rw [List.find?_cons_of_neg, h2]
      simp only [beq_iff_eq]
      omega

theorem mem_of_mem_uniqFromSorted (sp : List (Nat × Nat))
    (hp : sp.Pairwise lexLT) : ∀ e ∈ uniqFromSorted sp, e ∈ sp := by
  intro e he
  exact List.mem_of_find?_eq_some (uniqFromSorted_find sp hp e he)

theorem dedupKeys_cover (l : List (Nat × Nat)) :
    ∀ last : Nat, ∀ p ∈ l, p.1 ≠ last →
      ∃ e ∈ dedupKeys last l, e.1 = p.1 := by
  induction l with
  | nil =>
    intro last p hp _
    simp at hp
  | cons b t ih =>
    intro last p hp hne
    rw [dedupKeys]
    by_cases hb : b.1 = last
    · rw [if_pos hb]
      rcases List.mem_cons.mp hp with rfl | hpt
      · omega
      · exact ih last p hpt hne
    · rw [if_neg hb]
      rcases List.mem_cons.mp hp with rfl | hpt
      · exact ⟨p, List.mem_cons_self p _, rfl⟩
      · by_cases hpb : p.1 = b.1
        · exact ⟨b, List.mem_cons_self b _, hpb.symm⟩
        · obtain ⟨e, he, heq⟩ := ih b.1 p hpt hpb
          exact ⟨e, List.mem_cons_of_mem b he, heq⟩

theorem uniqFromSorted_cover (sp : List (Nat × Nat)) :
    ∀ p ∈ sp, ∃ e ∈ uniqFromSorted sp, e.1 = p.1 := by
  match sp with
  | [] =>
    intro p hp
    simp at hp
  | b :: t =>
    intro p hp
    rw [uniqFromSorted]
    rcases List.mem_cons.mp hp with rfl | hpt
    · exact ⟨p, List.mem_cons_self p _, rfl⟩
    · by_cases hpb : p.1 = b.1
      · exact ⟨b, List.mem_cons_self b _, hpb.symm⟩
      · obtain ⟨e, he, heq⟩ := dedupKeys_cover t b.1 p hpt hpb
        exact ⟨e, List.mem_cons_of_mem b he, heq⟩

theorem dedupKeys_pairwise (l : List (Nat × Nat)) :
    ∀ last : Nat, l.Pairwise lexLT → (∀ p ∈ l, last ≤ p.1) →
      (dedupKeys last l).Pairwise (fun a b => a.1 < b.1) ∧
        ∀ e ∈ dedupKeys last l, last < e.1 := by
  induction l with
  | nil =>
    intro last _ _
    constructor
    · simp [dedupKeys]
    · intro e he
      simp [dedupKeys] at he
  | cons b t ih =>
    intro last hp hge
    rw [dedupKeys]
    have hpt : t.Pairwise lexLT := (List.pairwise_cons.mp hp).2
    have hhead := (List.pairwise_cons.mp hp).1
    by_cases hb : b.1 = last
    · rw [if_pos hb]
      refine ih last hpt ?_
      intro p hpmem
      rcases hhead p hpmem with h | ⟨h, _⟩
      · omega
      · omega
    · rw [if_neg hb]
      have hlastb : last < b.1 :=
        Nat.lt_of_le_of_ne (hge b (List.mem_cons_self b t)) (fun h => hb h.symm)
      have hget : ∀ p ∈ t, b.1 ≤ p.1 := by
        intro p hpmem
        rcases hhead p hpmem with h | ⟨h, _⟩
        · omega
        · omega
      obtain ⟨ihpw, ihgt⟩ := ih b.1 hpt hget
      constructor
      · exact List.Pairwise.cons (fun e he => ihgt e he) ihpw
      · intro e he
        rcases List.mem_cons.mp he with rfl | het
        · exact hlastb
        · have := ihgt e het
          omega

theorem uniqFromSorted_pairwise (sp : List (Nat × Nat))
    (hp : sp.Pairwise lexLT) :
    (uniqFromSorted sp).Pairwise (fun a b => a.1 < b.1) := by
  match sp with
  | [] => simp [uniqFromSorted]
  | b :: t =>
    rw [uniqFromSorted]
    have hpt : t.Pairwise lexLT := (List.pairwise_cons.mp hp).2
    have hhead := (List.pairwise_cons.mp hp).1
    have hget : ∀ p ∈ t, b.1 ≤ p.1 := by
      intro p hpmem
      rcases hhead p hpmem with h | ⟨h, _⟩
      · omega
      · omega
    obtain ⟨ihpw, ihgt⟩ := dedupKeys_pairwise t b.1 hpt hget
    exact List.Pairwise.cons (fun e he => ihgt e he) ihpw

theorem dedupKeys_length_le (l : List (Nat × Nat)) :
    ∀ last : Nat, (dedupKeys last l).length ≤ l.length := by
  induction l with
  | nil =>
    intro last
    simp [dedupKeys]
  | cons b t ih =>
    intro last
    rw [dedupKeys]
    by_cases hb : b.1 = last
    · rw [if_pos hb]
      have := ih last
      simp only [List.length_cons]
      omega
    · rw [if_neg hb]
      have := ih b.1
      simp only [List.length_cons]
      omega

theorem uniqFromSorted_length_le (sp : List (Nat × Nat)) :
    (uniqFromSorted sp).length ≤ sp.length := by
  match sp with
  | [] => simp [uniqFromSorted]
  | b :: t =>
    rw [uniqFromSorted]
    have := dedupKeys_length_le t b.1
    simp only [List.length_cons]
    omega

theorem find?_min_of_pairwise (l : List (Nat × Nat))
    (hp : l.Pairwise lexLT) (k : Nat) (e : Nat × Nat)
    (hf : l.find? (fun p => p.1 == k) = some e) :
    ∀ p ∈ l, p.1 = k → e.2 ≤ p.2 := by
  induction l with
  | nil => simp at hf
  | cons b t ih =>
    have hpt : t.Pairwise lexLT := (List.pairwise_cons.mp hp).2
    have hhead := (List.pairwise_cons.mp hp).1
    intro p hpmem hpk
    by_cases hb : b.1 = k
    · rw [List.find?_cons_of_pos _ (by simp [hb])] at hf
      injection hf with hbe
      subst hbe
      rcases List.mem_cons.mp hpmem with rfl | hpt2
      · exact Nat.le_refl _
      · rcases hhead p hpt2 with h | ⟨h, h2⟩
        · omega
        · omega
    · rw [List.find?_cons_of_neg _ (by simp [hb])] at hf
      rcases List.mem_cons.mp hpmem with rfl | hpt2
      · omega
      · exact ih hpt hf p hpt2 hpk

theorem inputKey_lt (ic : List Coord3D) (s : Int) (j : Nat) :
    inputKey ic s j < 1073741824 :=
  to_key_lt _

theorem mem_compute_unique (ic : List Coord3D) (s : Int) (e : IndexedCoord)
    (he : e ∈ compute_unique_sorted_coords ic s) :
    e.orig_idx < ic.length ∧
      e.coord = Coord3D.from_key (inputKey ic s e.orig_idx) ∧
      e.to_key = inputKey ic s e.orig_idx := by
  unfold compute_unique_sorted_coords at he
  rcases List.mem_map.mp he with ⟨p, hpmem, rfl⟩
  have hsp := mem_of_mem_uniqFromSorted _ (sortedPairs_pairwise_lex ic s) p hpmem
  obtain ⟨hlt, hkey⟩ := (mem_sortedPairs ic s p).mp hsp
  refine ⟨hlt, ?_, ?_⟩
  · simp only [hkey]
  · show (Coord3D.from_key p.1).to_key = inputKey ic s p.2
    rw [to_key_from_key p.1 (by rw [hkey]; exact inputKey_lt ic s p.2), hkey]

theorem compute_unique_keys (ic : List Coord3D) (s : Int) :
    (compute_unique_sorted_coords ic s).map IndexedCoord.to_key =
      (uniqFromSorted (sortedPairs ic s)).map (fun p => p.1) := by
  unfold compute_unique_sorted_coords
  rw [List.map_map]
  refine List.map_congr_left ?_
  intro p hp
  have hsp := mem_of_mem_uniqFromSorted _ (sortedPairs_pairwise_lex ic s) p hp
  obtain ⟨_, hkey⟩ := (mem_sortedPairs ic s p).mp hsp
  show (Coord3D.from_key p.1).to_key = p.1
  exact to_key_from_key p.1 (by rw [hkey]; exact inputKey_lt ic s p.2)

theorem keyIdxPairs_length (ic : List Coord3D) (s : Int) :
    (keyIdxPairs ic s).length = ic.length := by
  unfold keyIdxPairs
  rw [List.length_map, List.length_range]

/-- C3: compute_unique_sorted_coords emits exactly one entry per
distinct quantized packed key of the input, in strictly ascending key
order; each entry's orig_idx is the original index carried by the first
occurrence of its key in the stably key-sorted (key, original_index)
sequence; the output is no longer than the input. -/
theorem dedup_correct (ic : List Coord3D) (s : Int) :
    ((compute_unique_sorted_coords ic s).map IndexedCoord.to_key).Pairwise
        (· < ·) ∧
      (∀ k : Nat,
        k ∈ (compute_unique_sorted_coords ic s).map IndexedCoord.to_key ↔
          ∃ j, j < ic.length ∧ inputKey ic s j = k) ∧
      (∀ e ∈ compute_unique_sorted_coords ic s,
        (sortedPairs ic s).find? (fun p => p.1 == e.to_key) =
          some (e.to_key, e.orig_idx)) ∧
      (compute_unique_sorted_coords ic s).length ≤ ic.length := by
  refine ⟨?_, ?_, ?_, ?_⟩
  · rw [compute_unique_keys]
    exact List.Pairwise.map _ (fun a b h => h)
      (uniqFromSorted_pairwise _ (sortedPairs_pairwise_lex ic s))
  · intro k
    constructor
    · intro hk
      rcases List.mem_map.mp hk with ⟨e, he, rfl⟩
      obtain ⟨h1, _, h3⟩ := mem_compute_unique ic s e he
      exact ⟨e.orig_idx, h1, h3.symm⟩
    · intro ⟨j, hj, hk⟩
      have hmem : ((inputKey ic s j, j) : Nat × Nat) ∈ sortedPairs ic s :=
        (mem_sortedPairs ic s _).mpr ⟨hj, rfl⟩
      obtain ⟨q, hq, hqk⟩ := uniqFromSorted_cover _ _ hmem
      rw [compute_unique_keys]
      refine List.mem_map.mpr ⟨q, hq, ?_⟩
      rw [hqk]
      exact hk
  · intro e he
    unfold compute_unique_sorted_coords at he
    rcases List.mem_map.mp he with ⟨p, hpmem, rfl⟩
    have hsp := mem_of_mem_uniqFromSorted _ (sortedPairs_pairwise_lex ic s) p hpmem
    obtain ⟨_, hkey⟩ := (mem_sortedPairs ic s p).mp hsp
    have hk : (⟨Coord3D.from_key p.1, p.2⟩ : IndexedCoord).to_key = p.1 :=
      to_key_from_key p.1 (by rw [hkey]; exact inputKey_lt ic s p.2)
    rw [hk]
    exact uniqFromSorted_find _ (sortedPairs_pairwise_lex ic s) p hpmem
  · unfold compute_unique_sorted_coords
    rw [List.length_map]
    have h1 := uniqFromSorted_length_le (sortedPairs ic s)
    have h2 : (sortedPairs ic s).length = ic.length := by
      unfold sortedPairs
      rw [List.length_insertionSort, keyIdxPairs_length]
    omega

/-- C10: because the (key, original_index) pairs are built in increasing
original-index order and the key sort is stable, every emitted unique
coordinate carries the minimum original input index among all input
positions whose quantized packed key equals its key. -/
theorem dedup_orig_idx_min (ic : List Coord3D) (s : Int)
    (e : IndexedCoord) (he : e ∈ compute_unique_sorted_coords ic s) :
    e.orig_idx < ic.length ∧ inputKey ic s e.orig_idx = e.to_key ∧
      ∀ j, j < ic.length → inputKey ic s j = e.to_key → e.orig_idx ≤ j := by
  obtain ⟨h1, _, h3⟩ := mem_compute_unique ic s e he
  refine ⟨h1, h3.symm, ?_⟩
  unfold compute_unique_sorted_coords at he
  rcases List.mem_map.mp he with ⟨p, hpmem, heq⟩
  have hpw := sortedPairs_pairwise_lex ic s
  have hfind := uniqFromSorted_find _ hpw p hpmem
  have hmin := find?_min_of_pairwise _ hpw p.1 p hfind
  have hek : (⟨Coord3D.from_key p.1, p.2⟩ : IndexedCoord).to_key = p.1 := by
    have hsp := mem_of_mem_uniqFromSorted _ hpw p hpmem
    obtain ⟨_, hkey⟩ := (mem_sortedPairs ic s p).mp hsp
    exact to_key_from_key p.1 (by rw [hkey]; exact inputKey_lt ic s p.2)
  intro j hj hjk
  have hjmem : ((inputKey ic s j, j) : Nat × Nat) ∈ sortedPairs ic s :=
    (mem_sortedPairs ic s _).mpr ⟨hj, rfl⟩
  have : p.2 ≤ j := by
    refine hmin _ hjmem ?_
    show inputKey ic s j = p.1
    rw [hjk, ← heq, hek]
  rw [← heq]
  exact this

theorem getD_map_of_lt {α β : Type} (f : α → β) (l : List α) (i : Nat)
    (h : i < l.length) (d : α) (d2 : β) :
    (l.map f).getD i d2 = f (l.getD i d) := by
  rw [List.getD_eq_getElem?_getD, List.getD_eq_getElem?_getD,
    List.getElem?_map, List.getElem?_eq_getElem h]
  rfl

theorem getD_mem_of_lt {α : Type} (l : List α) (i : Nat)
    (h : i < l.length) (d : α) : l.getD i d ∈ l := by
  rw [List.getD_eq_getElem?_getD, List.getElem?_eq_getElem h]
  exact List.getElem_mem h

theorem tileChunksF_flatten (n : Nat) (hn : 0 < n) :
    ∀ (fuel : Nat) (l : List IndexedCoord), l.length ≤ fuel →
      (tileChunksF n fuel l).flatten = l := by
  intro fuel
  induction fuel with
  | zero =>
    intro l hl
    have : l = [] := List.eq_nil_of_length_eq_zero (by omega)
    subst this
    rfl
  | succ fuel ih =>
    intro l hl
    match l with
    | [] => rfl
    | a :: rest =>
      rw [tileChunksF, if_neg (by omega)]
      rw [List.flatten_cons]
      have hdrop : ((a :: rest).drop n).length ≤ fuel := by
        rw [List.length_drop]
        simp only [List.length_cons] at hl ⊢
        omega
      rw [ih _ hdrop, List.take_append_drop]

theorem tileChunksF_ne_nil (n : Nat) (hn : 0 < n) :
    ∀ (fuel : Nat) (l : List IndexedCoord), ∀ t ∈ tileChunksF n fuel l,
      t ≠ [] := by
  intro fuel
  induction fuel with
  | zero =>
    intro l t ht
    match l with
    | [] => simp [tileChunksF] at ht
  | succ fuel ih =>
    intro l t ht
    match l with
    | [] => simp [tileChunksF] at ht
    | a :: rest =>
      rw [tileChunksF, if_neg (by omega)] at ht
      rcases List.mem_cons.mp ht with rfl | ht2
      · have : ((a :: rest).take n).length = min n (a :: rest).length :=
          List.length_take n _
        intro hcon
        rw [hcon] at this
        simp only [List.length_nil, List.length_cons] at this
        omega
      · exact ih _ t ht2

theorem filterMap_head?_of_ne_nil :
    ∀ ts : List (List IndexedCoord), (∀ t ∈ ts, t ≠ []) →
      ts.filterMap (fun t => t.head?) = ts.map (fun t => t.headD icZero) := by
  intro ts
  induction ts with
  | nil =>
    intro _
    rfl
  | cons t rest ih =>
    intro h
    match t, h t (List.mem_cons_self t rest) with
    | a :: t', _ =>
      rw [List.filterMap_cons, List.map_cons]
      have : (a :: t').head? = some ((a :: t').headD icZero) := rfl
      rw [this]
      rw [ih (fun u hu => h u (List.mem_cons_of_mem _ hu))]

theorem head?_of_ne_nil (t : List IndexedCoord) (h : t ≠ []) :
    t.head? = some (t.headD icZero) := by
  match t with
  | [] => exact absurd rfl h
  | a :: t' => rfl

theorem tileChunksF_nil (n fuel : Nat) : tileChunksF n fuel [] = [] := by
  match fuel with
  | 0 => rfl
  | _ + 1 => rfl

theorem tileChunks_full (l : List IndexedCoord) (hl : l ≠ []) :
    tileChunksF l.length l.length l = [l] := by
  match l with
  | a :: rest =>
    simp only [List.length_cons]
    rw [tileChunksF, if_neg (by omega)]
    have h1 : (a :: rest).take (rest.length + 1) = a :: rest := by
      have : (a :: rest).length = rest.length + 1 := rfl
      rw [← this, List.take_length]
    have h2 : (a :: rest).drop (rest.length + 1) = [] := by
      have : (a :: rest).length = rest.length + 1 := rfl
      rw [← this, List.drop_length]
    rw [h1, h2, tileChunksF_nil]

/-- The tile width create_tiles_and_pivots actually uses is positive
whenever the input is non-empty. -/
theorem tile_width_pos (uniq : List IndexedCoord) (ts : Int)
    (h : ¬uniq.isEmpty) :
    0 < (if ts ≤ 0 then uniq.length else ts.toNat) := by
  split
  · have : uniq ≠ [] := by
      intro hcon
      rw [hcon] at h
      exact h rfl
    have : 0 < uniq.length := List.length_pos.mpr this
    omega
  · omega

theorem create_tiles_eq (uniq : List IndexedCoord) (ts : Int)
    (h : uniq.isEmpty = false) :
    create_tiles_and_pivots uniq ts =
      ⟨tileChunks (if ts ≤ 0 then uniq.length else ts.toNat) uniq,
        (tileChunks (if ts ≤ 0 then uniq.length else ts.toNat)
          uniq).filterMap (fun t => t.head?)⟩ := by
  simp only [create_tiles_and_pivots, h]
  rfl

/-- C5 (amended): the tiles concatenate back to the input sequence, each
tile's first element is the corresponding pivot, and for a NON-EMPTY
input a non-positive tile size yields the single tile covering the whole
sequence; an empty input yields no tiles at all. -/
theorem tiling_coverage (uniq : List IndexedCoord) (ts : Int) :
    (create_tiles_and_pivots uniq ts).tiles.flatten = uniq ∧
      (∀ i, i < (create_tiles_and_pivots uniq ts).tiles.length →
        ((create_tiles_and_pivots uniq ts).tiles.getD i []).head? =
          some ((create_tiles_and_pivots uniq ts).pivots.getD i icZero)) ∧
      (create_tiles_and_pivots uniq ts).pivots.length =
        (create_tiles_and_pivots uniq ts).tiles.length ∧
      (ts ≤ 0 → uniq ≠ [] →
        (create_tiles_and_pivots uniq ts).tiles = [uniq]) := by
  cases hemp : uniq.isEmpty with
  | true =>
    have huniq : uniq = [] := List.isEmpty_iff.mp hemp
    subst huniq
    simp only [create_tiles_and_pivots]
    refine ⟨rfl, ?_, rfl, ?_⟩
    · intro i hi
      simp at hi
    · intro _ hcon
      exact absurd rfl hcon
  | false =>
    have hne : uniq ≠ [] := by
      intro hcon
      rw [hcon] at hemp
      simp at hemp
    rw [create_tiles_eq uniq ts hemp]
    simp only [tileChunks]
    have hn : 0 < (if ts ≤ 0 then uniq.length else ts.toNat) := by
      split
      · exact List.length_pos.mpr hne
      · omega
    have hnonnil := tileChunksF_ne_nil _ hn uniq.length uniq
    refine ⟨?_, ?_, ?_, ?_⟩
    · exact tileChunksF_flatten _ hn uniq.length uniq (Nat.le_refl _)
    · intro i hi
      rw [filterMap_head?_of_ne_nil _ hnonnil,
        getD_map_of_lt _ _ i hi []]
      exact head?_of_ne_nil _ (hnonnil _ (getD_mem_of_lt _ i hi []))
    · rw [filterMap_head?_of_ne_nil _ hnonnil, List.length_map]
    · intro hts _
      rw [if_pos hts]
      exact tileChunks_full uniq hne

/-
Indexing a flatMap of equal-length blocks: element o * U + i sits at
offset i of block o, matching the C++ glob_idx = off_idx * U + in_idx.
-/
theorem flatMap_blocks_getElem? {α β : Type} (g : α → List β) (U : Nat)
    (hg : ∀ a, (g a).length = U) :
    ∀ (offs : List α) (o i : Nat), o < offs.length → i < U →
      ∃ a, offs[o]? = some a ∧
        (offs.flatMap g)[o * U + i]? = (g a)[i]? := by
  intro offs
  induction offs with
  | nil =>
    intro o i ho _
    simp at ho
  | cons b rest ih =>
    intro o i ho hi
    match o with
    | 0 =>
      refine ⟨b, by simp, ?_⟩
      rw [List.flatMap_cons, List.getElem?_append]
      rw [if_pos (by rw [hg b]; omega)]
      simp only [Nat.zero_mul, Nat.zero_add]
    | o' + 1 =>
      simp only [List.length_cons] at ho
      obtain ⟨a, ha1, ha2⟩ := ih o' i (by omega) hi
      refine ⟨a, ?_, ?_⟩
      · simpa using ha1
      · rw [List.flatMap_cons, List.getElem?_append_right (by rw [hg b]; ring_nf; omega)]
        rw [hg b]
        have : (o' + 1) * U + i - U = o' * U + i := by ring_nf; omega
        rw [this]
        exact ha2

theorem length_flatMap_blocks {α β : Type} (g : α → List β) (U : Nat)
    (hg : ∀ a, (g a).length = U) (offs : List α) :
    (offs.flatMap g).length = offs.length * U := by
  induction offs with
  | nil => simp
  | cons b rest ih =>
    rw [List.flatMap_cons, List.length_append, hg b, ih, List.length_cons]
    ring

/-- C4: build_coordinate_queries returns U * K parallel queries, and the
query at global index o * U + i pairs unique coordinate i with offset o:
its key is the packed key of unique_coords[i] + offsets[o], its
qry_in_idx is i and its qry_off_idx is o. -/
theorem build_queries_correct (uniq : List IndexedCoord) (s : Int)
    (offs : List Coord3D) (o i : Nat) (ho : o < offs.length)
    (hi : i < uniq.length) :
    (build_coordinate_queries uniq s offs).qry_keys.length =
        uniq.length * offs.length ∧
      (build_coordinate_queries uniq s offs).qry_in_idx.length =
        uniq.length * offs.length ∧
      (build_coordinate_queries uniq s offs).qry_off_idx.length =
        uniq.length * offs.length ∧
      (build_coordinate_queries uniq s offs).wt_offsets.length =
        uniq.length * offs.length ∧
      (build_coordinate_queries uniq s offs).qry_keys[o * uniq.length + i]? =
        some ⟨(uniq.getD i icZero).coord + offs.getD o cZero,
          (uniq.getD i icZero).orig_idx⟩ ∧
      ((build_coordinate_queries uniq s offs).qry_keys.getD
          (o * uniq.length + i) icZero).to_key =
        ((uniq.getD i icZero).coord + offs.getD o cZero).to_key ∧
      (build_coordinate_queries uniq s offs).qry_in_idx[o * uniq.length + i]? =
        some i ∧
      (build_coordinate_queries uniq s offs).qry_off_idx[o * uniq.length + i]? =
        some o ∧
      (build_coordinate_queries uniq s offs).wt_offsets[o * uniq.length + i]? =
        some (offs.getD o cZero) := by
  have hkeys : ∀ off : Coord3D,
      ((fun off => uniq.map (fun u =>
        (⟨u.coord + off, u.orig_idx⟩ : IndexedCoord))) off).length =
        uniq.length := by
    intro off
    exact List.length_map uniq _
  have hin : ∀ off : Coord3D,
      ((fun _ : Coord3D => List.range uniq.length) off).length =
        uniq.length := by
    intro off
    exact List.length_range _
  have hoff : ∀ o' : Nat,
      ((fun o' => List.replicate uniq.length o') o').length =
        uniq.length := by
    intro o'
    exact List.length_replicate _ _
  have hwt : ∀ off : Coord3D,
      ((fun off => List.replicate uniq.length off) off).length =
        uniq.length := by
    intro off
    exact List.length_replicate _ _
  obtain ⟨a1, ha1, hb1⟩ := flatMap_blocks_getElem? _ uniq.length hkeys offs o i ho hi
  obtain ⟨a2, ha2, hb2⟩ := flatMap_blocks_getElem? _ uniq.length hin offs o i ho hi
  obtain ⟨a3, ha3, hb3⟩ := flatMap_blocks_getElem? _ uniq.length hoff
    (List.range offs.length) o i (by rw [List.length_range]; omega) hi
  obtain ⟨a4, ha4, hb4⟩ := flatMap_blocks_getElem? _ uniq.length hwt offs o i ho hi
  have hgetoffs : offs[o]? = some (offs.getD o cZero) := by
    rw [List.getD_eq_getElem?_getD, List.getElem?_eq_getElem ho]
    rfl
  have hgetuniq : uniq[i]? = some (uniq.getD i icZero) := by
    rw [List.getD_eq_getElem?_getD, List.getElem?_eq_getElem hi]
    rfl
  have ha1' : a1 = offs.getD o cZero := by
    rw [hgetoffs] at ha1
    injection ha1 with h
    exact h.symm
  have ha4' : a4 = offs.getD o cZero := by
    rw [hgetoffs] at ha4
    injection ha4 with h
    exact h.symm
  have ha3' : a3 = o := by
    rw [List.getElem?_range ho] at ha3
    injection ha3 with h
    exact h.symm
  have hq1 : (build_coordinate_queries uniq s offs).qry_keys[o * uniq.length + i]? =
      some ⟨(uniq.getD i icZero).coord + offs.getD o cZero,
        (uniq.getD i icZero).orig_idx⟩ := by
    show (offs.flatMap _)[o * uniq.length + i]? = _
    rw [hb1, ha1', List.getElem?_map, hgetuniq]
    rfl
  refine ⟨?_, ?_, ?_, ?_, hq1, ?_, ?_, ?_, ?_⟩
  · show (offs.flatMap _).length = _
    rw [length_flatMap_blocks _ uniq.length hkeys]
    ring
  · show (offs.flatMap _).length = _
    rw [length_flatMap_blocks _ uniq.length hin]
    ring
  · show ((List.range offs.length).flatMap _).length = _
    rw [length_flatMap_blocks _ uniq.length hoff, List.length_range]
    ring
  · show (offs.flatMap _).length = _
    rw [length_flatMap_blocks _ uniq.length hwt]
    ring
  · rw [List.getD_eq_getElem?_getD, hq1]
    rfl
  · show (offs.flatMap _)[o * uniq.length + i]? = some i
    rw [hb2, List.getElem?_range hi]
  · show ((List.range offs.length).flatMap _)[o * uniq.length + i]? = some o
    rw [hb3, ha3', List.getElem?_replicate, if_pos hi]
  · show (offs.flatMap _)[o * uniq.length + i]? = some (offs.getD o cZero)
    rw [hb4, ha4', List.getElem?_replicate, if_pos hi]

theorem sorted_getD_le (keys : List Nat) (hs : keys.Pairwise (· ≤ ·))
    (i j : Nat) (hij : i ≤ j) (hj : j < keys.length) :
    keys.getD i 0 ≤ keys.getD j 0 := by
  rcases Nat.eq_or_lt_of_le hij with rfl | hlt
  · exact Nat.le_refl _
  · have h := List.pairwise_iff_getElem.mp hs i j (by omega) hj hlt
    rw [List.getD_eq_getElem?_getD, List.getD_eq_getElem?_getD,
      List.getElem?_eq_getElem (by omega : i < keys.length),
      List.getElem?_eq_getElem hj]
    exact h

/-- What the binary-search loop state means at exit (low > high): every
index below low holds a key ≤ the query key, every index above high a
key greater, and target tracks low - 1 (or the initial 0). -/
theorem btExit (keys : List Nat) (qkey : Nat) (low high target : Int)
    (h2 : high < (keys.length : Int))
    (hlo : ∀ i : Nat, (i : Int) < low → keys.getD i 0 ≤ qkey)
    (hhi : ∀ i : Nat, high < (i : Int) → i < keys.length →
      qkey < keys.getD i 0)
    (hinv : (low = 0 ∧ target = 0) ∨ (1 ≤ low ∧ target = low - 1))
    (h1 : low ≤ high + 1) (hexit : high < low) :
    ((∀ i : Nat, i < keys.length → qkey < keys.getD i 0) → target = 0) ∧
      ((∃ i : Nat, i < keys.length ∧ keys.getD i 0 ≤ qkey) →
        0 ≤ target ∧ target.toNat < keys.length ∧
          keys.getD target.toNat 0 ≤ qkey ∧
          ∀ j : Nat, j < keys.length → keys.getD j 0 ≤ qkey →
            j ≤ target.toNat) := by
  rcases hinv with ⟨hl0, ht0⟩ | ⟨hl1, ht⟩
  · constructor
    · intro _
      exact ht0
    · intro ⟨i, hi, hik⟩
      have := hhi i (by omega) hi
      omega
  · subst ht
    have hlh : low = high + 1 := by omega
    have htn : ((low - 1).toNat : Int) = low - 1 := by omega
    have hkd : keys.getD (low - 1).toNat 0 ≤ qkey := hlo _ (by omega)
    have htlen : (low - 1).toNat < keys.length := by omega
    constructor
    · intro hall
      have := hall _ htlen
      omega
    · intro _
      refine ⟨by omega, htlen, hkd, ?_⟩
      intro j hj hjk
      by_contra hcon
      have hjh : high < (j : Int) := by omega
      have := hhi j hjh hj
      omega

theorem btLoopF_spec (keys : List Nat) (qkey : Nat)
    (hs : keys.Pairwise (· ≤ ·)) :
    ∀ (fuel : Nat) (low high target : Int),
      0 ≤ low → low ≤ high + 1 → high < (keys.length : Int) →
      (high + 1 - low).toNat ≤ fuel →
      (∀ i : Nat, (i : Int) < low → keys.getD i 0 ≤ qkey) →
      (∀ i : Nat, high < (i : Int) → i < keys.length →
        qkey < keys.getD i 0) →
      ((low = 0 ∧ target = 0) ∨ (1 ≤ low ∧ target = low - 1)) →
      ((∀ i : Nat, i < keys.length → qkey < keys.getD i 0) →
          btLoopF keys qkey fuel low high target = 0) ∧
        ((∃ i : Nat, i < keys.length ∧ keys.getD i 0 ≤ qkey) →
          0 ≤ btLoopF keys qkey fuel low high target ∧
            (btLoopF keys qkey fuel low high target).toNat < keys.length ∧
            keys.getD (btLoopF keys qkey fuel low high target).toNat 0 ≤
              qkey ∧
            ∀ j : Nat, j < keys.length → keys.getD j 0 ≤ qkey →
              j ≤ (btLoopF keys qkey fuel low high target).toNat) := by
  intro fuel
  induction fuel with
  | zero =>
    intro low high target h0 h1 h2 hfuel hlo hhi hinv
    have hexit : high < low := by omega
    show ((∀ i : Nat, i < keys.length → qkey < keys.getD i 0) →
        target = 0) ∧ _
    exact btExit keys qkey low high target h2 hlo hhi hinv h1 hexit
  | succ fuel ih =>
    intro low high target h0 h1 h2 hfuel hlo hhi hinv
    rw [btLoopF]
    by_cases hlh : low ≤ high
    · rw [if_pos hlh]
      have hd2a : 0 ≤ (high - low) / 2 := Int.ediv_nonneg (by omega) (by omega)
      have hd2b : (high - low) / 2 ≤ high - low :=
        Int.ediv_le_self _ (by omega)
      have hmid0 : 0 ≤ low + (high - low) / 2 := by omega
      have hmidh : low + (high - low) / 2 ≤ high := by omega
      have hmidn : ((low + (high - low) / 2).toNat : Int) =
          low + (high - low) / 2 := by omega
      have hmidlen : (low + (high - low) / 2).toNat < keys.length := by
        omega
      by_cases hc : keys.getD (low + (high - low) / 2).toNat 0 ≤ qkey
      · rw [if_pos hc]
        refine ih (low + (high - low) / 2 + 1) high
          (low + (high - low) / 2) (by omega) (by omega) h2 (by omega)
          ?_ hhi (Or.inr ⟨by omega, by omega⟩)
        intro i hi
        by_cases hil : (i : Int) < low
        · exact hlo i hil
        · have : i ≤ (low + (high - low) / 2).toNat := by omega
          exact Nat.le_trans (sorted_getD_le keys hs i _ this hmidlen) hc
      · rw [if_neg hc]
        refine ih low (low + (high - low) / 2 - 1) target
          h0 (by omega) (by omega) (by omega) hlo ?_ hinv
        intro i hi hilen
        have : (low + (high - low) / 2).toNat ≤ i := by omega
        have hle := sorted_getD_le keys hs _ i this hilen
        omega
    · rw [if_neg hlh]
      exact btExit keys qkey low high target h2 hlo hhi hinv h1 (by omega)

theorem find_tile_id_spec (keys : List Nat) (qkey : Nat)
    (hs : keys.Pairwise (· ≤ ·)) :
    (keys = [] → find_tile_id keys qkey = none) ∧
      ((∃ i, i < keys.length ∧ keys.getD i 0 ≤ qkey) →
        ∃ t, find_tile_id keys qkey = some t ∧ t < keys.length ∧
          keys.getD t 0 ≤ qkey ∧
          ∀ j, j < keys.length → keys.getD j 0 ≤ qkey → j ≤ t) ∧
      (keys ≠ [] →
        (∀ i, i < keys.length → qkey < keys.getD i 0) →
        find_tile_id keys qkey = some 0) := by
  by_cases hemp : keys = []
  · refine ⟨fun _ => ?_, fun hex => ?_, fun hne _ => absurd hemp hne⟩
    · rw [find_tile_id, if_pos (by rw [hemp]; rfl)]
    · obtain ⟨i, hi, _⟩ := hex
      rw [hemp] at hi
      simp at hi
  · have hlen : 0 < keys.length := List.length_pos.mpr hemp
    have hie : keys.isEmpty = false := by
      cases keys with
      | nil => exact absurd rfl hemp
      | cons a t => rfl
    have hbt := btLoopF_spec keys qkey hs keys.length 0
      ((keys.length : Int) - 1) 0 (by omega) (by omega) (by omega)
      (by omega) (fun i hi => absurd hi (by omega))
      (fun i hi hilen => absurd hi (by omega)) (Or.inl ⟨rfl, rfl⟩)
    refine ⟨fun h => absurd h hemp, fun hex => ?_, fun _ hall => ?_⟩
    · obtain ⟨hR0, hRlen, hRk, hRmax⟩ := hbt.2 hex
      refine ⟨(btLoopF keys qkey keys.length 0 ((keys.length : Int) - 1)
        0).toNat, ?_, hRlen, hRk, hRmax⟩
      rw [find_tile_id, if_neg (by rw [hie]; simp)]
    · have hR := hbt.1 hall
      rw [find_tile_id, if_neg (by rw [hie]; simp), hR]
      rfl

/-- C6 (amended): with key-sorted pivots, whenever some pivot key is ≤
the query key the binary search selects the LAST such pivot.  When the
pivot list is non-empty and no pivot key is ≤ the query key, the source
still selects tile 0 (its target index is initialized to 0, not -1), so
tile 0 is scanned and its element reads are recorded; no match can be
produced from that scan provided every element of tile 0 has a key
greater than the query key, which holds whenever tile 0 starts at
pivot 0 of a key-sorted sequence. -/
theorem lookup_pivot_selection (tiles : List (List IndexedCoord))
    (pivs : List IndexedCoord) (qkey : Nat)
    (hs : (pivs.map IndexedCoord.to_key).Pairwise (· ≤ ·)) :
    ((∃ i, i < pivs.length ∧
        (pivs.map IndexedCoord.to_key).getD i 0 ≤ qkey) →
      ∃ t, find_tile_id (pivs.map IndexedCoord.to_key) qkey = some t ∧
        t < pivs.length ∧
        (pivs.map IndexedCoord.to_key).getD t 0 ≤ qkey ∧
        ∀ j, j < pivs.length →
          (pivs.map IndexedCoord.to_key).getD j 0 ≤ qkey → j ≤ t) ∧
      (pivs ≠ [] →
        (∀ i, i < pivs.length →
          qkey < (pivs.map IndexedCoord.to_key).getD i 0) →
        find_tile_id (pivs.map IndexedCoord.to_key) qkey = some 0 ∧
          ((∀ x ∈ tiles.getD 0 [], qkey < x.to_key) →
            queryMatch tiles pivs qkey = none)) := by
  have hlen : (pivs.map IndexedCoord.to_key).length = pivs.length :=
    List.length_map _ _
  obtain ⟨h1, h2, h3⟩ := find_tile_id_spec (pivs.map IndexedCoord.to_key)
    qkey hs
  constructor
  · intro hex
    obtain ⟨t, ht⟩ := h2 (by rw [hlen]; exact hex)
    rw [hlen] at ht
    exact ⟨t, ht⟩
  · intro hne hall
    have hne' : pivs.map IndexedCoord.to_key ≠ [] := by
      intro hcon
      exact hne (List.map_eq_nil_iff.mp hcon)
    have hfid := h3 hne' (by rw [hlen]; exact hall)
    refine ⟨hfid, ?_⟩
    intro htile
    rw [queryMatch, hfid]
    show (if 0 < tiles.length then
      ((tiles.getD 0 []).find? (fun ic => ic.to_key == qkey)).map
        IndexedCoord.orig_idx else none) = none
    by_cases htl : 0 < tiles.length
    · rw [if_pos htl]
      have : (tiles.getD 0 []).find?
          (fun ic => ic.to_key == qkey) = none := by
        rw [List.find?_eq_none]
        intro x hx
        have := htile x hx
        simp only [beq_iff_eq]
        omega
      rw [this]
      rfl
    · rw [if_neg htl]

theorem queryMatch_some (tiles : List (List IndexedCoord))
    (pivs : List IndexedCoord) (qkey : Nat) (ii : Nat)
    (h : queryMatch tiles pivs qkey = some ii) :
    ∃ x, x ∈ tiles.flatten ∧ x.to_key = qkey ∧ x.orig_idx = ii := by
  unfold queryMatch at h
  split at h
  · exact absurd h (by simp)
  · rename_i t heq
    split at h
    · rename_i htl
      obtain ⟨x, hfind, hx⟩ := Option.map_eq_some'.mp h
      refine ⟨x, ?_, ?_, hx⟩
      · exact List.mem_flatten.mpr
          ⟨tiles.getD t [], getD_mem_of_lt tiles t htl [],
            List.mem_of_find?_eq_some hfind⟩
      · have := List.find?_some hfind
        simpa using this
    · exact absurd h (by simp)

theorem lookupOne_eq_some (tiles : List (List IndexedCoord))
    (pivs : List IndexedCoord) (qry_keys : List IndexedCoord)
    (qry_off_idx : List Nat) (q : Nat) (e : Nat × Nat × Nat)
    (h : lookupOne tiles pivs qry_keys qry_off_idx q = some e) :
    ∃ ii, queryMatch tiles pivs (qry_keys.getD q icZero).to_key =
        some ii ∧
      e = (qry_off_idx.getD q 0, ii, (qry_keys.getD q icZero).orig_idx) := by
  unfold lookupOne at h
  split at h
  · rename_i ii heq
    exact ⟨ii, heq, (Option.some.inj h).symm⟩
  · exact absurd h (by simp)

theorem mem_lookup (uniq_coords qry_keys : List IndexedCoord)
    (qry_in_idx qry_off_idx : List Nat) (wt_offsets : List Coord3D)
    (tiles : List (List IndexedCoord)) (pivs : List IndexedCoord)
    (tsp : Int) (e : Nat × Nat × Nat)
    (he : e ∈ perform_coordinate_lookup uniq_coords qry_keys qry_in_idx
      qry_off_idx wt_offsets tiles pivs tsp) :
    ∃ q, q < qry_keys.length ∧
      lookupOne tiles pivs qry_keys qry_off_idx q = some e := by
  unfold perform_coordinate_lookup at he
  split at he
  · exact absurd he (by simp)
  · obtain ⟨q, hq, hfq⟩ := List.mem_filterMap.mp he
    exact ⟨q, List.mem_range.mp hq, hfq⟩

theorem lookup_length_le (uniq_coords qry_keys : List IndexedCoord)
    (qry_in_idx qry_off_idx : List Nat) (wt_offsets : List Coord3D)
    (tiles : List (List IndexedCoord)) (pivs : List IndexedCoord)
    (tsp : Int) :
    (perform_coordinate_lookup uniq_coords qry_keys qry_in_idx
      qry_off_idx wt_offsets tiles pivs tsp).length ≤
      qry_keys.length := by
  unfold perform_coordinate_lookup
  split
  · simp
  · calc ((List.range qry_keys.length).filterMap
        (lookupOne tiles pivs qry_keys qry_off_idx)).length
        ≤ (List.range qry_keys.length).length :=
          List.length_filterMap_le _ _
      _ = qry_keys.length := List.length_range _

theorem pairwise_filterMap_of {α β : Type} (f : α → Option β)
    {R : α → α → Prop} {S : β → β → Prop}
    (h : ∀ a b, R a b → ∀ c, f a = some c → ∀ d, f b = some d → S c d) :
    ∀ l : List α, l.Pairwise R → (l.filterMap f).Pairwise S := by
  intro l
  induction l with
  | nil =>
    intro _
    simp
  | cons a t ih =>
    intro hp
    rw [List.filterMap_cons]
    cases hfa : f a with
    | none => exact ih (List.pairwise_cons.mp hp).2
    | some c =>
      refine List.Pairwise.cons ?_ (ih (List.pairwise_cons.mp hp).2)
      intro d hd
      obtain ⟨b, hb, hfb⟩ := List.mem_filterMap.mp hd
      exact h a b ((List.pairwise_cons.mp hp).1 b hb) c hfa d hfb

theorem compute_unique_keys_nodup (ic : List Coord3D) (s : Int) :
    ((compute_unique_sorted_coords ic s).map IndexedCoord.to_key).Nodup := by
  have := (dedup_correct ic s).1
  exact this.imp Nat.ne_of_lt

theorem compute_unique_orig_inj (ic : List Coord3D) (s : Int)
    (e e' : IndexedCoord) (he : e ∈ compute_unique_sorted_coords ic s)
    (he' : e' ∈ compute_unique_sorted_coords ic s)
    (h : e.orig_idx = e'.orig_idx) : e = e' := by
  have h1 := (mem_compute_unique ic s e he).2.2
  have h2 := (mem_compute_unique ic s e' he').2.2
  refine List.inj_on_of_nodup_map (compute_unique_keys_nodup ic s) he he' ?_
  rw [h1, h2, h]

theorem nodup_getD_inj {α : Type} (l : List α) (hn : l.Nodup)
    (i j : Nat) (hi : i < l.length) (hj : j < l.length) (d : α)
    (h : l.getD i d = l.getD j d) : i = j := by
  rw [List.getD_eq_getElem?_getD, List.getD_eq_getElem?_getD,
    List.getElem?_eq_getElem hi, List.getElem?_eq_getElem hj] at h
  exact (List.Nodup.getElem_inj_iff hn).mp h

theorem mem_kmapList (entries : List (Nat × Nat × Nat)) (o : Nat)
    (p : Nat × Nat) (hp : p ∈ kmapList entries o) :
    (o, p.1, p.2) ∈ entries := by
  unfold kmapList at hp
  obtain ⟨e, he, hfe⟩ := List.mem_filterMap.mp hp
  split at hfe
  · rename_i heo
    injection hfe with hfe
    rw [← heo]
    rw [← hfe]
    exact he
  · exact absurd hfe (by simp)

theorem build_queries_lengths (uniq : List IndexedCoord) (s : Int)
    (offs : List Coord3D) :
    (build_coordinate_queries uniq s offs).qry_keys.length =
        offs.length * uniq.length ∧
      (build_coordinate_queries uniq s offs).qry_off_idx.length =
        offs.length * uniq.length := by
  constructor
  · show (offs.flatMap _).length = _
    rw [length_flatMap_blocks _ uniq.length
      (fun off => List.length_map uniq _)]
  · show ((List.range offs.length).flatMap _).length = _
    rw [length_flatMap_blocks _ uniq.length
      (fun o => List.length_replicate _ _), List.length_range]

/-- One kernel-map entry of the full pipeline, unravelled: its offset
index is the query's offset index, its input index is the matched unique
coordinate's original index, its source index is the query's source, and
the matched coordinate is the query source's quantized coordinate plus
the offset (in packed keys always; as coordinates whenever the sums stay
in the codec's range). -/
theorem lookup_entry_sound (ic : List Coord3D) (s : Int)
    (offs : List Coord3D) (ts : Int)
    (hrep : ∀ c ∈ ic, (c.quantized s).representable)
    (hsum : ∀ c ∈ ic, ∀ off ∈ offs, (c.quantized s + off).representable)
    (e : Nat × Nat × Nat)
    (he : e ∈ perform_coordinate_lookup
      (compute_unique_sorted_coords ic s)
      (build_coordinate_queries (compute_unique_sorted_coords ic s) s
        offs).qry_keys
      (build_coordinate_queries (compute_unique_sorted_coords ic s) s
        offs).qry_in_idx
      (build_coordinate_queries (compute_unique_sorted_coords ic s) s
        offs).qry_off_idx
      (build_coordinate_queries (compute_unique_sorted_coords ic s) s
        offs).wt_offsets
      (create_tiles_and_pivots (compute_unique_sorted_coords ic s)
        ts).tiles
      (create_tiles_and_pivots (compute_unique_sorted_coords ic s)
        ts).pivots ts) :
    e.1 < offs.length ∧ e.2.1 < ic.length ∧ e.2.2 < ic.length ∧
      (ic.getD e.2.1 cZero).quantized s =
        (ic.getD e.2.2 cZero).quantized s + offs.getD e.1 cZero ∧
      ((ic.getD e.2.1 cZero).quantized s).to_key =
        ((ic.getD e.2.2 cZero).quantized s + offs.getD e.1 cZero).to_key := by
  obtain ⟨q, hq, hfq⟩ := mem_lookup _ _ _ _ _ _ _ _ e he
  obtain ⟨ii, hqm, heq⟩ := lookupOne_eq_some _ _ _ _ q e hfq
  have hQ := (build_queries_lengths (compute_unique_sorted_coords ic s)
    s offs).1
  have hU : 0 < (compute_unique_sorted_coords ic s).length := by
    by_contra hcon
    have h0 : (compute_unique_sorted_coords ic s).length = 0 := by omega
    rw [hQ, h0, Nat.mul_zero] at hq
    omega
  have ho : q / (compute_unique_sorted_coords ic s).length <
      offs.length := by
    rw [hQ, Nat.mul_comm] at hq
    exact Nat.div_lt_of_lt_mul hq
  have hi : q % (compute_unique_sorted_coords ic s).length <
      (compute_unique_sorted_coords ic s).length := Nat.mod_lt _ hU
  have hqdecomp : (q / (compute_unique_sorted_coords ic s).length) *
      (compute_unique_sorted_coords ic s).length +
      q % (compute_unique_sorted_coords ic s).length = q := by
    rw [Nat.mul_comm]
    exact Nat.div_add_mod q _
  obtain ⟨_, _, _, _, hq1, _, _, hoff1, _⟩ :=
    build_queries_correct (compute_unique_sorted_coords ic s) s offs
      (q / (compute_unique_sorted_coords ic s).length)
      (q % (compute_unique_sorted_coords ic s).length) ho hi
  rw [hqdecomp] at hq1 hoff1
  have hqkD : (build_coordinate_queries
      (compute_unique_sorted_coords ic s) s offs).qry_keys.getD q icZero =
      ⟨((compute_unique_sorted_coords ic s).getD
          (q % (compute_unique_sorted_coords ic s).length) icZero).coord +
        offs.getD (q / (compute_unique_sorted_coords ic s).length) cZero,
        ((compute_unique_sorted_coords ic s).getD
          (q % (compute_unique_sorted_coords ic s).length)
          icZero).orig_idx⟩ := by
    rw [List.getD_eq_getElem?_getD, hq1]
    rfl
  have hoffD : (build_coordinate_queries
      (compute_unique_sorted_coords ic s) s offs).qry_off_idx.getD q 0 =
      q / (compute_unique_sorted_coords ic s).length := by
    rw [List.getD_eq_getElem?_getD, hoff1]
    rfl
  obtain ⟨x, hxflat, hxkey, hxorig⟩ := queryMatch_some _ _ _ ii hqm
  have hxuniq : x ∈ compute_unique_sorted_coords ic s := by
    rw [(tiling_coverage (compute_unique_sorted_coords ic s) ts).1] at hxflat
    exact hxflat
  obtain ⟨hxlt, hxc, hxk⟩ := mem_compute_unique ic s x hxuniq
  have huuniq : (compute_unique_sorted_coords ic s).getD
      (q % (compute_unique_sorted_coords ic s).length) icZero ∈
      compute_unique_sorted_coords ic s :=
    getD_mem_of_lt _ _ hi icZero
  obtain ⟨hult, huc, _⟩ := mem_compute_unique ic s _ huuniq
  have hxrep : ((ic.getD x.orig_idx cZero).quantized s).representable :=
    hrep _ (getD_mem_of_lt ic x.orig_idx hxlt cZero)
  have hurep : ((ic.getD ((compute_unique_sorted_coords ic s).getD
      (q % (compute_unique_sorted_coords ic s).length)
      icZero).orig_idx cZero).quantized s).representable :=
    hrep _ (getD_mem_of_lt ic _ hult cZero)
  have hxcoord : x.coord = (ic.getD x.orig_idx cZero).quantized s := by
    rw [hxc]
    show Coord3D.from_key
      (((ic.getD x.orig_idx cZero).quantized s).to_key) = _
    exact from_key_to_key _ hxrep
  have hucoord : ((compute_unique_sorted_coords ic s).getD
      (q % (compute_unique_sorted_coords ic s).length) icZero).coord =
      (ic.getD ((compute_unique_sorted_coords ic s).getD
        (q % (compute_unique_sorted_coords ic s).length)
        icZero).orig_idx cZero).quantized s := by
    rw [huc]
    show Coord3D.from_key
      (((ic.getD _ cZero).quantized s).to_key) = _
    exact from_key_to_key _ hurep
  have hoffmem : offs.getD
      (q / (compute_unique_sorted_coords ic s).length) cZero ∈ offs :=
    getD_mem_of_lt offs _ ho cZero
  have hsumrep : ((ic.getD ((compute_unique_sorted_coords ic s).getD
      (q % (compute_unique_sorted_coords ic s).length)
      icZero).orig_idx cZero).quantized s +
      offs.getD (q / (compute_unique_sorted_coords ic s).length)
        cZero).representable :=
    hsum _ (getD_mem_of_lt ic _ hult cZero) _ hoffmem
  have hkeyeq : ((ic.getD x.orig_idx cZero).quantized s).to_key =
      ((ic.getD ((compute_unique_sorted_coords ic s).getD
        (q % (compute_unique_sorted_coords ic s).length)
        icZero).orig_idx cZero).quantized s +
        offs.getD (q / (compute_unique_sorted_coords ic s).length)
          cZero).to_key := by
    rw [← hxcoord, ← hucoord]
    rw [hqkD] at hxkey
    exact hxkey
  have hcoordeq : (ic.getD x.orig_idx cZero).quantized s =
      (ic.getD ((compute_unique_sorted_coords ic s).getD
        (q % (compute_unique_sorted_coords ic s).length)
        icZero).orig_idx cZero).quantized s +
        offs.getD (q / (compute_unique_sorted_coords ic s).length)
          cZero :=
    to_key_inj _ _ hxrep hsumrep hkeyeq
  subst heq
  rw [hqkD, hoffD]
  rw [← hxorig]
  exact ⟨ho, hxlt, hult, hcoordeq, hkeyeq⟩

theorem lookup_query_fields (ic : List Coord3D) (s : Int)
    (offs : List Coord3D) (q : Nat)
    (hq : q < (build_coordinate_queries
      (compute_unique_sorted_coords ic s) s offs).qry_keys.length) :
    0 < (compute_unique_sorted_coords ic s).length ∧
      q / (compute_unique_sorted_coords ic s).length < offs.length ∧
      (build_coordinate_queries (compute_unique_sorted_coords ic s) s
        offs).qry_off_idx.getD q 0 =
        q / (compute_unique_sorted_coords ic s).length ∧
      ((build_coordinate_queries (compute_unique_sorted_coords ic s) s
        offs).qry_keys.getD q icZero).orig_idx =
        ((compute_unique_sorted_coords ic s).getD
          (q % (compute_unique_sorted_coords ic s).length)
          icZero).orig_idx := by
  have hQ := (build_queries_lengths (compute_unique_sorted_coords ic s)
    s offs).1
  have hU : 0 < (compute_unique_sorted_coords ic s).length := by
    by_contra hcon
    have h0 : (compute_unique_sorted_coords ic s).length = 0 := by omega
    rw [hQ, h0, Nat.mul_zero] at hq
    omega
  have ho : q / (compute_unique_sorted_coords ic s).length <
      offs.length := by
    rw [hQ, Nat.mul_comm] at hq
    exact Nat.div_lt_of_lt_mul hq
  have hi : q % (compute_unique_sorted_coords ic s).length <
      (compute_unique_sorted_coords ic s).length := Nat.mod_lt _ hU
  have hqdecomp : (q / (compute_unique_sorted_coords ic s).length) *
      (compute_unique_sorted_coords ic s).length +
      q % (compute_unique_sorted_coords ic s).length = q := by
    rw [Nat.mul_comm]
    exact Nat.div_add_mod q _
  obtain ⟨_, _, _, _, hq1, _, _, hoff1, _⟩ :=
    build_queries_correct (compute_unique_sorted_coords ic s) s offs
      (q / (compute_unique_sorted_coords ic s).length)
      (q % (compute_unique_sorted_coords ic s).length) ho hi
  rw [hqdecomp] at hq1 hoff1
  refine ⟨hU, ho, ?_, ?_⟩
  · rw [List.getD_eq_getElem?_getD, hoff1]
    rfl
  · rw [List.getD_eq_getElem?_getD, hq1]
    rfl

theorem lookup_one_entry_per_query (ic : List Coord3D) (s : Int)
    (offs : List Coord3D) (ts : Int) :
    (perform_coordinate_lookup (compute_unique_sorted_coords ic s)
      (build_coordinate_queries (compute_unique_sorted_coords ic s) s
        offs).qry_keys
      (build_coordinate_queries (compute_unique_sorted_coords ic s) s
        offs).qry_in_idx
      (build_coordinate_queries (compute_unique_sorted_coords ic s) s
        offs).qry_off_idx
      (build_coordinate_queries (compute_unique_sorted_coords ic s) s
        offs).wt_offsets
      (create_tiles_and_pivots (compute_unique_sorted_coords ic s)
        ts).tiles
      (create_tiles_and_pivots (compute_unique_sorted_coords ic s)
        ts).pivots ts).Pairwise
      (fun e1 e2 => e1.1 ≠ e2.1 ∨ e1.2.2 ≠ e2.2.2) := by
  have hnodup : (compute_unique_sorted_coords ic s).Nodup :=
    List.Nodup.of_map _ (compute_unique_keys_nodup ic s)
  unfold perform_coordinate_lookup
  split
  · exact List.Pairwise.nil
  · refine pairwise_filterMap_of _
      (R := fun a b => a < b ∧ b < (build_coordinate_queries
        (compute_unique_sorted_coords ic s) s offs).qry_keys.length)
      ?_ _ ?_
    · intro a b hR c hfc d hfd
      obtain ⟨hab, hbQ⟩ := hR
      have haQ : a < (build_coordinate_queries
          (compute_unique_sorted_coords ic s) s offs).qry_keys.length :=
        Nat.lt_trans hab hbQ
      obtain ⟨iic, hqmc, rfl⟩ := lookupOne_eq_some _ _ _ _ a c hfc
      obtain ⟨iid, hqmd, rfl⟩ := lookupOne_eq_some _ _ _ _ b d hfd
      obtain ⟨hU, hoa, hoffa, horga⟩ := lookup_query_fields ic s offs a haQ
      obtain ⟨_, hob, hoffb, horgb⟩ := lookup_query_fields ic s offs b hbQ
      by_contra hcon
      push_neg at hcon
      obtain ⟨h1, h2⟩ := hcon
      simp only at h1 h2
      rw [hoffa, hoffb] at h1
      rw [horga, horgb] at h2
      have hia : a % (compute_unique_sorted_coords ic s).length <
          (compute_unique_sorted_coords ic s).length := Nat.mod_lt _ hU
      have hib : b % (compute_unique_sorted_coords ic s).length <
          (compute_unique_sorted_coords ic s).length := Nat.mod_lt _ hU
      have heq := compute_unique_orig_inj ic s _ _
        (getD_mem_of_lt _ _ hia icZero) (getD_mem_of_lt _ _ hib icZero) h2
      have hmod := nodup_getD_inj _ hnodup _ _ hia hib icZero heq
      have ha' := Nat.div_add_mod a
        (compute_unique_sorted_coords ic s).length
      have hb' := Nat.div_add_mod b
        (compute_unique_sorted_coords ic s).length
      rw [h1] at ha'
      omega
    · rw [List.pairwise_iff_getElem]
      intro i j hi hj hij
      rw [List.getElem_range, List.getElem_range]
      exact ⟨hij, by simpa using hj⟩

/-- C1: every entry of the kernel map built by the full pipeline is a
true neighbor relation — the quantized input coordinate at the entry's
input index equals the quantized input coordinate at its query-source
index plus the offset of its offset-index (equivalently their packed
keys coincide) — and no single query contributes more than one entry:
no two entries share both their offset-index and their query source, and
there are no more entries than queries. -/
theorem lookup_soundness (ic : List Coord3D) (s : Int)
    (offs : List Coord3D) (ts : Int)
    (hrep : ∀ c ∈ ic, (c.quantized s).representable)
    (hsum : ∀ c ∈ ic, ∀ off ∈ offs,
      (c.quantized s + off).representable) :
    (∀ o : Nat, ∀ p ∈ kmapList (perform_coordinate_lookup
        (compute_unique_sorted_coords ic s)
        (build_coordinate_queries (compute_unique_sorted_coords ic s) s
          offs).qry_keys
        (build_coordinate_queries (compute_unique_sorted_coords ic s) s
          offs).qry_in_idx
        (build_coordinate_queries (compute_unique_sorted_coords ic s) s
          offs).qry_off_idx
        (build_coordinate_queries (compute_unique_sorted_coords ic s) s
          offs).wt_offsets
        (create_tiles_and_pivots (compute_unique_sorted_coords ic s)
          ts).tiles
        (create_tiles_and_pivots (compute_unique_sorted_coords ic s)
          ts).pivots ts) o,
      o < offs.length ∧ p.1 < ic.length ∧ p.2 < ic.length ∧
        (ic.getD p.1 cZero).quantized s =
          (ic.getD p.2 cZero).quantized s + offs.getD o cZero ∧
        ((ic.getD p.1 cZero).quantized s).to_key =
          ((ic.getD p.2 cZero).quantized s + offs.getD o cZero).to_key) ∧
      (perform_coordinate_lookup (compute_unique_sorted_coords ic s)
        (build_coordinate_queries (compute_unique_sorted_coords ic s) s
          offs).qry_keys
        (build_coordinate_queries (compute_unique_sorted_coords ic s) s
          offs).qry_in_idx
        (build_coordinate_queries (compute_unique_sorted_coords ic s) s
          offs).qry_off_idx
        (build_coordinate_queries (compute_unique_sorted_coords ic s) s
          offs).wt_offsets
        (create_tiles_and_pivots (compute_unique_sorted_coords ic s)
          ts).tiles
        (create_tiles_and_pivots (compute_unique_sorted_coords ic s)
          ts).pivots ts).length ≤
        (build_coordinate_queries (compute_unique_sorted_coords ic s) s
          offs).qry_keys.length ∧
      (perform_coordinate_lookup (compute_unique_sorted_coords ic s)
        (build_coordinate_queries (compute_unique_sorted_coords ic s) s
          offs).qry_keys
        (build_coordinate_queries (compute_unique_sorted_coords ic s) s
          offs).qry_in_idx
        (build_coordinate_queries (compute_unique_sorted_coords ic s) s
          offs).qry_off_idx
        (build_coordinate_queries (compute_unique_sorted_coords ic s) s
          offs).wt_offsets
        (create_tiles_and_pivots (compute_unique_sorted_coords ic s)
          ts).tiles
        (create_tiles_and_pivots (compute_unique_sorted_coords ic s)
          ts).pivots ts).Pairwise
        (fun e1 e2 => e1.1 ≠ e2.1 ∨ e1.2.2 ≠ e2.2.2) := by
  refine ⟨?_, lookup_length_le _ _ _ _ _ _ _ _,
    lookup_one_entry_per_query ic s offs ts⟩
  intro o p hp
  exact lookup_entry_sound ic s offs ts hrep hsum (o, p.1, p.2)
    (mem_kmapList _ o p hp)

theorem sum_map_const_of {α : Type} (l : List α) (f : α → Nat) (c : Nat)
    (h : ∀ a ∈ l, f a = c) : (l.map f).sum = c * l.length := by
  induction l with
  | nil => simp
  | cons a t ih =>
    rw [List.map_cons, List.sum_cons, h a (List.mem_cons_self a t),
      ih (fun b hb => h b (List.mem_cons_of_mem a hb)), List.length_cons]
    ring

theorem traceRecordBytes_length (w : Int) (hw : w = 4 ∨ w = 8)
    (e : MemoryAccessEntry) :
    (traceRecordBytes w e).length = 4 + w.toNat := by
  rcases hw with rfl | rfl
  · rfl
  · rfl

/-- C8: the trace writer rejects any address width other than 4 or 8
with an invalid-argument error, producing no payload byte; with width 4
or 8 it produces the little-endian entry count followed by one record of
4 + width bytes per trace entry. -/
theorem trace_writer_spec (trace : List MemoryAccessEntry) (w : Int) :
    ((w ≠ 4 ∧ w ≠ 8) →
      write_gmem_trace trace w =
        Except.error "sizeof_addr must be 4 or 8") ∧
      ((w = 4 ∨ w = 8) →
        write_gmem_trace trace w =
          Except.ok (le32 trace.length ++
            trace.flatMap (traceRecordBytes w)) ∧
        ∀ bytes, write_gmem_trace trace w = Except.ok bytes →
          bytes.length = 4 + (4 + w.toNat) * trace.length ∧
            bytes.take 4 = le32 trace.length) := by
  constructor
  · intro hw
    rw [write_gmem_trace, if_pos hw]
  · intro hw
    have hok : write_gmem_trace trace w =
        Except.ok (le32 trace.length ++
          trace.flatMap (traceRecordBytes w)) := by
      rw [write_gmem_trace, if_neg (by rcases hw with rfl | rfl <;> simp)]
    refine ⟨hok, ?_⟩
    intro bytes hbytes
    rw [hok] at hbytes
    injection hbytes with hbytes
    subst hbytes
    constructor
    · rw [List.length_append, List.length_flatMap,
        sum_map_const_of trace (List.length ∘ traceRecordBytes w)
          (4 + w.toNat) (fun a _ => traceRecordBytes_length w hw a)]
      rfl
    · exact List.take_left' rfl

theorem kmapGroupBytes_length (off_list : List Coord3D)
    (p : Nat × List (Nat × Nat)) :
    (kmapGroupBytes off_list p).length =
      12 * (if p.1 < off_list.length then p.2.length else 0) := by
  unfold kmapGroupBytes
  split
  · rw [List.length_flatMap,
      sum_map_const_of p.2 (List.length ∘ fun m =>
        le32 (off_list.getD p.1 cZero).to_key ++ le32 m.1 ++ le32 m.2)
        12 (fun m _ => rfl)]
  · rfl

/-- C7 (amended): the kernel-map writer's four-byte header is the
little-endian total of ALL match-list lengths (including groups whose
offset-index is out of bounds); the records that follow cover only the
in-bounds groups, 12 bytes per match, grouped in descending list-length
order; when every offset-index is in bounds the byte count is exactly
4 + 12 * total. -/
theorem kernel_map_writer_spec (kmap : List (Nat × List (Nat × Nat)))
    (off_list : List Coord3D) :
    (write_kernel_map_to_gz kmap off_list).take 4 =
        le32 ((kmap.map (fun p => p.2.length)).sum) ∧
      (write_kernel_map_to_gz kmap off_list).length =
        4 + 12 * ((get_sorted_items kmap).map
          (fun p => if p.1 < off_list.length then p.2.length else 0)).sum ∧
      ((get_sorted_items kmap).map (fun p => p.2.length)).Pairwise
        (fun a b => b ≤ a) ∧
      ((∀ p ∈ kmap, p.1 < off_list.length) →
        (write_kernel_map_to_gz kmap off_list).length =
          4 + 12 * ((kmap.map (fun p => p.2.length)).sum)) := by
  have hlen : (write_kernel_map_to_gz kmap off_list).length =
      4 + 12 * ((get_sorted_items kmap).map
        (fun p => if p.1 < off_list.length then p.2.length else 0)).sum := by
    unfold write_kernel_map_to_gz
    rw [List.length_append, List.length_flatMap]
    have hmap : (get_sorted_items kmap).map
        (List.length ∘ kmapGroupBytes off_list) =
        (get_sorted_items kmap).map (fun p =>
          12 * (if p.1 < off_list.length then p.2.length else 0)) :=
      List.map_congr_left (fun p _ => kmapGroupBytes_length off_list p)
    rw [hmap, List.sum_map_mul_left]
    rfl
  refine ⟨?_, hlen, ?_, ?_⟩
  · unfold write_kernel_map_to_gz
    exact List.take_left' rfl
  · exact List.Pairwise.map _ (fun a b h => h)
      (List.sorted_insertionSort lenDescLe kmap)
  · intro hin
    rw [hlen]
    have hperm : (get_sorted_items kmap).Perm kmap :=
      List.perm_insertionSort lenDescLe kmap
    have h2 : (get_sorted_items kmap).map
        (fun p => if p.1 < off_list.length then p.2.length else 0) =
        (get_sorted_items kmap).map (fun p => p.2.length) :=
      List.map_congr_left
        (fun p hp => if_pos (hin p (hperm.mem_iff.mp hp)))
    rw [h2, (hperm.map (fun p => p.2.length)).sum_eq]

/-- C7 counterexample: a kernel map whose only group has offset-index 5
against an empty offset list writes a header announcing one 12-byte
record but then writes no record at all: the file is 4 bytes, not 16. -/
theorem kernel_map_writer_counterexample :
    write_kernel_map_to_gz [(5, [(0, 0)])] [] = le32 1 ∧
      (([((5 : Nat), [((0 : Nat), (0 : Nat))])].map
        (fun p => p.2.length)).sum = 1) ∧
      (write_kernel_map_to_gz [(5, [(0, 0)])] []).length ≠ 4 + 12 * 1 := by
  decide

theorem tdiv_bound (v s : Int) (hs : 0 < s) (h0 : -512 ≤ v)
    (h1 : v < 512) : -512 ≤ v.tdiv s ∧ v.tdiv s < 512 := by
  have habs := Int.natAbs_tdiv v s
  have hle : v.natAbs.div s.natAbs ≤ v.natAbs := Nat.div_le_self _ _
  generalize v.natAbs.div s.natAbs = t at habs hle
  rcases Int.le_or_lt 0 v with hv | hv
  · have hnn : 0 ≤ v.tdiv s := Int.tdiv_nonneg hv (by omega)
    omega
  · have h2 : (-v).tdiv s = -(v.tdiv s) := Int.neg_tdiv v s
    have h3 : 0 ≤ (-v).tdiv s := Int.tdiv_nonneg (by omega) (by omega)
    omega

theorem representable_quantized (c : Coord3D) (s : Int) (hs : 0 < s)
    (h : c.representable) : (c.quantized s).representable := by
  obtain ⟨h1, h2, h3, h4, h5, h6⟩ := h
  have hx := tdiv_bound c.x s hs h1 h2
  have hy := tdiv_bound c.y s hs h3 h4
  have hz := tdiv_bound c.z s hs h5 h6
  exact ⟨hx.1, hx.2, hy.1, hy.2, hz.1, hz.2⟩

/-- C9: for representable coordinates and positive stride, unpacking the
packed key of the quantized coordinate gives back the quantized
coordinate exactly, and two representable coordinates are equal iff
their packed keys are equal. -/
theorem codec_roundtrip (c d e : Coord3D) (s : Int) (hs : 0 < s)
    (hc : c.representable) (hd : d.representable)
    (he : e.representable) :
    Coord3D.from_key ((c.quantized s).to_key) = c.quantized s ∧
      (d = e ↔ d.to_key = e.to_key) := by
  refine ⟨from_key_to_key _ (representable_quantized c s hs hc), ?_, ?_⟩
  · intro h
    rw [h]
  · intro h
    exact to_key_inj d e hd he h

/-- The spec's concrete scenario: three input coordinates with one
duplicate. -/
def demoCoords : List Coord3D := [⟨0, 0, 0⟩, ⟨1, 0, 0⟩, ⟨0, 0, 0⟩]

/-- The spec's concrete scenario: the single kernel offset (1,0,0). -/
def demoOffsets : List Coord3D := [⟨1, 0, 0⟩]

/-- Unique coordinates of the concrete scenario at stride 1. -/
def demoUniq : List IndexedCoord := compute_unique_sorted_coords demoCoords 1

/-- Queries of the concrete scenario. -/
def demoQueries : BuildQueriesResult :=
  build_coordinate_queries demoUniq 1 demoOffsets

/-- Tiles and pivots of the concrete scenario at tile size 1. -/
def demoTiles : TilesPivotsResult := create_tiles_and_pivots demoUniq 1

/-- Kernel map of the concrete scenario. -/
def demoKernelMap : List (Nat × Nat × Nat) :=
  perform_coordinate_lookup demoUniq demoQueries.qry_keys
    demoQueries.qry_in_idx demoQueries.qry_off_idx demoQueries.wt_offsets
    demoTiles.tiles demoTiles.pivots 1

/-- C2: on inputs [(0,0,0),(1,0,0),(0,0,0)] with stride 1 and offsets
[(1,0,0)], dedup keeps (0,0,0) with orig_idx 0 and (1,0,0) with
orig_idx 1 (the duplicate at index 2 is dropped), the queries carry the
keys of (1,0,0) and (2,0,0), and the kernel map's list for offset-index
0 is exactly [(1, 0)]. -/
theorem concrete_scenario :
    demoUniq = [⟨⟨0, 0, 0⟩, 0⟩, ⟨⟨1, 0, 0⟩, 1⟩] ∧
      demoQueries.qry_keys = [⟨⟨1, 0, 0⟩, 0⟩, ⟨⟨2, 0, 0⟩, 1⟩] ∧
      demoQueries.qry_keys.map IndexedCoord.to_key =
        [Coord3D.to_key ⟨1, 0, 0⟩, Coord3D.to_key ⟨2, 0, 0⟩] ∧
      kmapList demoKernelMap 0 = [(1, 0)] ∧
      demoKernelMap = [(0, 1, 0)] := by
  decide

/-- C5 counterexample: on an empty unique-coordinate sequence with tile
size 0 (≤ 0), create_tiles_and_pivots yields NO tile, not the single
whole-range tile the claim asks for. -/
theorem tiling_empty_counterexample :
    (create_tiles_and_pivots [] 0).tiles.length = 0 ∧
      (create_tiles_and_pivots [] 0).tiles ≠ [([] : List IndexedCoord)] := by
  decide

/-- Single-coordinate fixture for the pivot-search counterexample. -/
def soloUniq : List IndexedCoord :=
  compute_unique_sorted_coords [⟨1, 0, 0⟩] 1

/-- Tiles and pivots of the single-coordinate fixture. -/
def soloTiles : TilesPivotsResult := create_tiles_and_pivots soloUniq 1

/-- C6 counterexample: querying the key of (0,0,0) against the pivot of
(1,0,0), no pivot key is ≤ the query key, yet the lookup still scans
tile 0 and records one tile-element read — the claim says no tile is
searched in that case. -/
theorem pivot_search_counterexample :
    (∀ i, i < soloTiles.pivots.length →
      Coord3D.to_key ⟨0, 0, 0⟩ <
        (soloTiles.pivots.map IndexedCoord.to_key).getD i 0) ∧
      queryTileReads soloTiles.tiles soloTiles.pivots
        (Coord3D.to_key ⟨0, 0, 0⟩) = 1 := by
  decide

/-- Witness for the codec round-trip at c = (5,-3,7), stride 2, and the
key-equality test at d = e = (1,2,3). -/
theorem codec_roundtrip_witness :
    (0 : Int) < 2 ∧ (⟨5, -3, 7⟩ : Coord3D).representable ∧
      (⟨1, 2, 3⟩ : Coord3D).representable ∧
      (Coord3D.from_key (((⟨5, -3, 7⟩ : Coord3D).quantized 2).to_key) =
          (⟨5, -3, 7⟩ : Coord3D).quantized 2 ∧
        ((⟨1, 2, 3⟩ : Coord3D) = ⟨1, 2, 3⟩ ↔
          (⟨1, 2, 3⟩ : Coord3D).to_key = (⟨1, 2, 3⟩ : Coord3D).to_key)) :=
  ⟨by decide, by decide, by decide,
    codec_roundtrip ⟨5, -3, 7⟩ ⟨1, 2, 3⟩ ⟨1, 2, 3⟩ 2 (by decide)
      (by decide) (by decide) (by decide)⟩

/-- Witness for the minimal-orig_idx property at the duplicated
coordinate of the concrete scenario. -/
theorem dedup_orig_idx_min_witness :
    (⟨⟨0, 0, 0⟩, 0⟩ : IndexedCoord) ∈
        compute_unique_sorted_coords demoCoords 1 ∧
      ((⟨⟨0, 0, 0⟩, 0⟩ : IndexedCoord).orig_idx < demoCoords.length ∧
        inputKey demoCoords 1
            (⟨⟨0, 0, 0⟩, 0⟩ : IndexedCoord).orig_idx =
          (⟨⟨0, 0, 0⟩, 0⟩ : IndexedCoord).to_key ∧
        ∀ j, j < demoCoords.length →
          inputKey demoCoords 1 j =
            (⟨⟨0, 0, 0⟩, 0⟩ : IndexedCoord).to_key →
          (⟨⟨0, 0, 0⟩, 0⟩ : IndexedCoord).orig_idx ≤ j) :=
  ⟨by decide, dedup_orig_idx_min demoCoords 1 ⟨⟨0, 0, 0⟩, 0⟩ (by decide)⟩

/-- One-entry trace fixture for the trace-writer witness. -/
def demoTrace : List MemoryAccessEntry := [⟨4, 0, 0, 1, 12⟩]

/-- Witness for the trace writer at widths 3 (rejected) and 4
(serialized). -/
theorem trace_writer_spec_witness :
    ((((3 : Int) ≠ 4 ∧ (3 : Int) ≠ 8) →
        write_gmem_trace demoTrace 3 =
          Except.error "sizeof_addr must be 4 or 8") ∧
      (((3 : Int) = 4 ∨ (3 : Int) = 8) →
        write_gmem_trace demoTrace 3 =
          Except.ok (le32 demoTrace.length ++
            demoTrace.flatMap (traceRecordBytes 3)) ∧
        ∀ bytes, write_gmem_trace demoTrace 3 = Except.ok bytes →
          bytes.length = 4 + (4 + (3 : Int).toNat) * demoTrace.length ∧
            bytes.take 4 = le32 demoTrace.length)) ∧
      ((((4 : Int) ≠ 4 ∧ (4 : Int) ≠ 8) →
        write_gmem_trace demoTrace 4 =
          Except.error "sizeof_addr must be 4 or 8") ∧
      (((4 : Int) = 4 ∨ (4 : Int) = 8) →
        write_gmem_trace demoTrace 4 =
          Except.ok (le32 demoTrace.length ++
            demoTrace.flatMap (traceRecordBytes 4)) ∧
        ∀ bytes, write_gmem_trace demoTrace 4 = Except.ok bytes →
          bytes.length = 4 + (4 + (4 : Int).toNat) * demoTrace.length ∧
            bytes.take 4 = le32 demoTrace.length)) :=
  ⟨trace_writer_spec demoTrace 3, trace_writer_spec demoTrace 4⟩

/-- Witness for query construction at offset 0, coordinate 1 of the
concrete scenario. -/
theorem build_queries_correct_witness :
    0 < demoOffsets.length ∧ 1 < demoUniq.length ∧
      ((build_coordinate_queries demoUniq 1 demoOffsets).qry_keys.length =
          demoUniq.length * demoOffsets.length ∧
        (build_coordinate_queries demoUniq 1
            demoOffsets).qry_in_idx.length =
          demoUniq.length * demoOffsets.length ∧
        (build_coordinate_queries demoUniq 1
            demoOffsets).qry_off_idx.length =
          demoUniq.length * demoOffsets.length ∧
        (build_coordinate_queries demoUniq 1
            demoOffsets).wt_offsets.length =
          demoUniq.length * demoOffsets.length ∧
        (build_coordinate_queries demoUniq 1
            demoOffsets).qry_keys[0 * demoUniq.length + 1]? =
          some ⟨(demoUniq.getD 1 icZero).coord + demoOffsets.getD 0 cZero,
            (demoUniq.getD 1 icZero).orig_idx⟩ ∧
        ((build_coordinate_queries demoUniq 1 demoOffsets).qry_keys.getD
            (0 * demoUniq.length + 1) icZero).to_key =
          ((demoUniq.getD 1 icZero).coord +
            demoOffsets.getD 0 cZero).to_key ∧
        (build_coordinate_queries demoUniq 1
            demoOffsets).qry_in_idx[0 * demoUniq.length + 1]? = some 1 ∧
        (build_coordinate_queries demoUniq 1
            demoOffsets).qry_off_idx[0 * demoUniq.length + 1]? = some 0 ∧
        (build_coordinate_queries demoUniq 1
            demoOffsets).wt_offsets[0 * demoUniq.length + 1]? =
          some (demoOffsets.getD 0 cZero)) :=
  ⟨by decide, by decide,
    build_queries_correct demoUniq 1 demoOffsets 0 1 (by decide)
      (by decide)⟩

/-- Witness for tiling coverage on the concrete scenario's unique
coordinates at tile size 1. -/
theorem tiling_coverage_witness :
    (create_tiles_and_pivots demoUniq 1).tiles.flatten = demoUniq ∧
      (∀ i, i < (create_tiles_and_pivots demoUniq 1).tiles.length →
        ((create_tiles_and_pivots demoUniq 1).tiles.getD i []).head? =
          some ((create_tiles_and_pivots demoUniq 1).pivots.getD i
            icZero)) ∧
      (create_tiles_and_pivots demoUniq 1).pivots.length =
        (create_tiles_and_pivots demoUniq 1).tiles.length ∧
      ((1 : Int) ≤ 0 → demoUniq ≠ [] →
        (create_tiles_and_pivots demoUniq 1).tiles = [demoUniq]) :=
  tiling_coverage demoUniq 1

/-- Witness for the pivot-selection theorem on the single-coordinate
fixture at the query key of (1,0,0). -/
theorem lookup_pivot_selection_witness :
    ((soloTiles.pivots.map IndexedCoord.to_key).Pairwise (· ≤ ·)) ∧
      (((∃ i, i < soloTiles.pivots.length ∧
          (soloTiles.pivots.map IndexedCoord.to_key).getD i 0 ≤
            Coord3D.to_key ⟨1, 0, 0⟩) →
        ∃ t, find_tile_id (soloTiles.pivots.map IndexedCoord.to_key)
            (Coord3D.to_key ⟨1, 0, 0⟩) = some t ∧
          t < soloTiles.pivots.length ∧
          (soloTiles.pivots.map IndexedCoord.to_key).getD t 0 ≤
            Coord3D.to_key ⟨1, 0, 0⟩ ∧
          ∀ j, j < soloTiles.pivots.length →
            (soloTiles.pivots.map IndexedCoord.to_key).getD j 0 ≤
              Coord3D.to_key ⟨1, 0, 0⟩ → j ≤ t) ∧
      (soloTiles.pivots ≠ [] →
        (∀ i, i < soloTiles.pivots.length →
          Coord3D.to_key ⟨1, 0, 0⟩ <
            (soloTiles.pivots.map IndexedCoord.to_key).getD i 0) →
        find_tile_id (soloTiles.pivots.map IndexedCoord.to_key)
            (Coord3D.to_key ⟨1, 0, 0⟩) = some 0 ∧
          ((∀ x ∈ soloTiles.tiles.getD 0 [],
            Coord3D.to_key ⟨1, 0, 0⟩ < x.to_key) →
            queryMatch soloTiles.tiles soloTiles.pivots
              (Coord3D.to_key ⟨1, 0, 0⟩) = none))) :=
  ⟨by decide,
    lookup_pivot_selection soloTiles.tiles soloTiles.pivots
      (Coord3D.to_key ⟨1, 0, 0⟩) (by decide)⟩

/-- Witness for the dedup characterization on the concrete scenario. -/
theorem dedup_correct_witness :
    ((compute_unique_sorted_coords demoCoords 1).map
        IndexedCoord.to_key).Pairwise (· < ·) ∧
      (∀ k : Nat,
        k ∈ (compute_unique_sorted_coords demoCoords 1).map
            IndexedCoord.to_key ↔
          ∃ j, j < demoCoords.length ∧ inputKey demoCoords 1 j = k) ∧
      (∀ e ∈ compute_unique_sorted_coords demoCoords 1,
        (sortedPairs demoCoords 1).find?
            (fun p => p.1 == e.to_key) =
          some (e.to_key, e.orig_idx)) ∧
      (compute_unique_sorted_coords demoCoords 1).length ≤
        demoCoords.length :=
  dedup_correct demoCoords 1

/-- Witness for the kernel-map writer on a one-group map whose
offset-index is in bounds. -/
theorem kernel_map_writer_spec_witness :
    (write_kernel_map_to_gz [(0, [(1, 0)])] demoOffsets).take 4 =
        le32 (([((0 : Nat), [((1 : Nat), (0 : Nat))])].map
          (fun p => p.2.length)).sum) ∧
      (write_kernel_map_to_gz [(0, [(1, 0)])] demoOffsets).length =
        4 + 12 * ((get_sorted_items [(0, [(1, 0)])]).map
          (fun p => if p.1 < demoOffsets.length then p.2.length
            else 0)).sum ∧
      ((get_sorted_items [(0, [(1, 0)])]).map
        (fun p => p.2.length)).Pairwise (fun a b => b ≤ a) ∧
      ((∀ p ∈ [((0 : Nat), [((1 : Nat), (0 : Nat))])],
          p.1 < demoOffsets.length) →
        (write_kernel_map_to_gz [(0, [(1, 0)])] demoOffsets).length =
          4 + 12 * (([((0 : Nat), [((1 : Nat), (0 : Nat))])].map
            (fun p => p.2.length)).sum)) :=
  kernel_map_writer_spec [(0, [(1, 0)])] demoOffsets

/-- Witness for lookup soundness on the concrete scenario, whose
coordinates and sums all stay inside the codec's range. -/
theorem lookup_soundness_witness :
    (∀ c ∈ demoCoords, (c.quantized 1).representable) ∧
      (∀ c ∈ demoCoords, ∀ off ∈ demoOffsets,
        (c.quantized 1 + off).representable) ∧
      ((∀ o : Nat, ∀ p ∈ kmapList demoKernelMap o,
        o < demoOffsets.length ∧ p.1 < demoCoords.length ∧
          p.2 < demoCoords.length ∧
          (demoCoords.getD p.1 cZero).quantized 1 =
            (demoCoords.getD p.2 cZero).quantized 1 +
              demoOffsets.getD o cZero ∧
          ((demoCoords.getD p.1 cZero).quantized 1).to_key =
            ((demoCoords.getD p.2 cZero).quantized 1 +
              demoOffsets.getD o cZero).to_key) ∧
      demoKernelMap.length ≤ demoQueries.qry_keys.length ∧
      demoKernelMap.Pairwise
        (fun e1 e2 => e1.1 ≠ e2.1 ∨ e1.2.2 ≠ e2.2.2)) :=
  ⟨by decide, by decide,
    lookup_soundness demoCoords 1 demoOffsets 1 (by decide) (by decide)⟩
